import Mathlib

/-!
Verification development for the Copilot Browser Bridge VS Code extension
(bridge gateway, path safety, agent tool loop, SSE stream relay).

The TypeScript sources are shallowly embedded: strings are modelled as
`List Char` where character-level reasoning is needed, external platform
capabilities (the filesystem, the chat model, terminals) are passed in as
explicit parameters, and every fallible external call is an `Except`.
The POSIX path separator is used throughout; the one place the sources
are platform sensitive (`normalizeForComparison`) keeps its platform flag.
-/

namespace Bridge

/-- Whitespace recognised by the JavaScript `trim` family, restricted to the
ASCII whitespace characters that can occur in the modelled inputs. -/
def isJsWhitespace (c : Char) : Bool :=
  c == ' ' || c == '\t' || c == '\n' || c == '\r'

/-- Model of `String.prototype.trimStart`. -/
def ltrim : List Char → List Char
  | [] => []
  | c :: cs => if isJsWhitespace c then ltrim cs else c :: cs

/-- Model of `String.prototype.trimEnd`. -/
def rtrim (cs : List Char) : List Char :=
  (ltrim cs.reverse).reverse

/-- Model of `String.prototype.trim`. -/
def jsTrim (cs : List Char) : List Char :=
  rtrim (ltrim cs)

/-- Model of `String.prototype.split(sep)` for a one-character separator:
always returns at least one (possibly empty) field. -/
def splitSep (sep : Char) : List Char → List (List Char)
  | [] => [[]]
  | c :: cs =>
    if c == sep then [] :: splitSep sep cs
    else
      match splitSep sep cs with
      | [] => [[c]]
      | l :: ls => (c :: l) :: ls

/-- Model of `Array.prototype.join(sep)` for a one-character separator. -/
def joinSep (sep : Char) : List (List Char) → List Char
  | [] => []
  | [l] => l
  | l :: ls => l ++ sep :: joinSep sep ls

/-- Model of `String.prototype.includes(pat)`: substring search. -/
def isInfixL (pat : List Char) : List Char → Bool
  | [] => pat.isPrefixOf []
  | c :: cs => pat.isPrefixOf (c :: cs) || isInfixL pat cs

/-- Model of `inputPath.replace(/\\/g, "/")`. -/
def slashify (cs : List Char) : List Char :=
  cs.map fun c => if c == '\\' then '/' else c

/-- `isSafeRelativePath` from `path-safety.ts` (the `BridgeServer` private copy
in `extension.ts` is character-for-character identical), on the character
list of the input string. -/
def isSafeRelativePathL (raw : List Char) : Bool :=
  if jsTrim raw == [] then false
  else
    let normalized := jsTrim (slashify raw)
    if ['/'].isPrefixOf normalized
        || isInfixL [':', '/', '/'] normalized
        || isInfixL [':'] normalized then false
    else if ['/'].isSuffixOf normalized then false
    else
      let segments := splitSep '/' normalized
      if segments.any (fun s => s.isEmpty) then false
      else !(segments.any fun s => s == ['.'] || s == ['.', '.'])

/-- `isSafeRelativePath` on `String` inputs (non-string inputs fail the
`typeof` guard in the source and are not representable here). -/
def isSafeRelativePath (p : String) : Bool :=
  isSafeRelativePathL p.toList

/-- An absolute filesystem path as its list of path segments, rendered with
the POSIX separator (`renderPath [] = "/"`). -/
def renderPath (segs : List (List Char)) : List Char :=
  '/' :: joinSep '/' segs

/-- Accumulator pass of Node's `path.resolve` segment normalisation: empty
segments and `.` are dropped, `..` pops the accumulator. -/
def resolveDotsAux : List (List Char) → List (List Char) → List (List Char)
  | acc, [] => acc
  | acc, s :: rest =>
    if s == [] || s == ['.'] then resolveDotsAux acc rest
    else if s == ['.', '.'] then resolveDotsAux acc.dropLast rest
    else resolveDotsAux (acc ++ [s]) rest

/-- Segment normalisation of Node's `path.resolve` on an absolute input. -/
def resolveDots (l : List (List Char)) : List (List Char) :=
  resolveDotsAux [] l

/-- Node's `path.resolve` on an already-absolute path, as segments. -/
def pathResolveSegs (p : List Char) : List (List Char) :=
  resolveDots (splitSep '/' p)

/-- Node's `path.resolve` on an already-absolute path, as a string. -/
def pathResolve (p : List Char) : List Char :=
  renderPath (pathResolveSegs p)

/-- External filesystem capability used by `path-safety.ts`: `fs.existsSync`
and `fs.realpathSync.native` (`realpath _ = none` models the `catch` arm). -/
structure FsModel where
  pathExists : List Char → Bool
  realpath : List Char → Option (List Char)

/-- The `while` loop of `resolveExistingAncestorPath`, walking the segment
list from its last component (the list is carried reversed so the recursion
is structural; `path.dirname` is dropping the last segment, and the parent of
the root is the root itself): find the nearest existing ancestor and pass it
through `realpathSync.native`, falling back to the path itself if that
throws. -/
def resolveAncestorRev (fs : FsModel) : List (List Char) → List Char
  | [] =>
    if fs.pathExists (renderPath []) then
      (fs.realpath (renderPath [])).getD (renderPath [])
    else renderPath []
  | s :: rest =>
    if fs.pathExists (renderPath (s :: rest).reverse) then
      (fs.realpath (renderPath (s :: rest).reverse)).getD (renderPath (s :: rest).reverse)
    else resolveAncestorRev fs rest

/-- The ancestor walk on a path given as its segment list. -/
def resolveExistingAncestorSegs (fs : FsModel) (segs : List (List Char)) : List Char :=
  resolveAncestorRev fs segs.reverse

/-- `resolveExistingAncestorPath` from `path-safety.ts` (its first line is
`path.resolve(filePath)`, rerun here on the raw input as in the source). -/
def resolveExistingAncestorPath (fs : FsModel) (p : List Char) : List Char :=
  resolveExistingAncestorSegs fs (pathResolveSegs p)

/-- The upper-to-lower case table of the ASCII letters. -/
def upperLowerPairs : List (Char × Char) :=
  [('A', 'a'), ('B', 'b'), ('C', 'c'), ('D', 'd'), ('E', 'e'), ('F', 'f'),
   ('G', 'g'), ('H', 'h'), ('I', 'i'), ('J', 'j'), ('K', 'k'), ('L', 'l'),
   ('M', 'm'), ('N', 'n'), ('O', 'o'), ('P', 'p'), ('Q', 'q'), ('R', 'r'),
   ('S', 's'), ('T', 't'), ('U', 'u'), ('V', 'v'), ('W', 'w'), ('X', 'x'),
   ('Y', 'y'), ('Z', 'z')]

/-- Lower-casing of one character as performed by `toLowerCase` on the ASCII
letters that occur in the modelled paths. -/
def jsLowerChar (c : Char) : Char :=
  ((upperLowerPairs.find? fun pr => pr.1 == c).map Prod.snd).getD c

/-- Model of `String.prototype.toLowerCase` (ASCII range). -/
def lowerL (cs : List Char) : List Char :=
  cs.map jsLowerChar

/-- `normalizeForComparison` from `path-safety.ts`: resolve again, then
lower-case exactly on win32. -/
def normalizeForComparison (win32 : Bool) (p : List Char) : List Char :=
  let resolved := pathResolve p
  if win32 then lowerL resolved else resolved

/-- `isWithinWorkspace` from `path-safety.ts` (the shared implementation):
resolve each side to its nearest existing ancestor's canonical path, then
compare for equality or a `root ++ "/"` string prefix. -/
def isWithinWorkspace (fs : FsModel) (win32 : Bool)
    (workspacePath targetPath : List Char) : Bool :=
  let w := normalizeForComparison win32
    (resolveExistingAncestorPath fs (pathResolve workspacePath))
  let t := normalizeForComparison win32
    (resolveExistingAncestorPath fs (pathResolve targetPath))
  t == w || (w ++ ['/']).isPrefixOf t

/-- `BridgeServer.isWithinWorkspace` from `extension.ts` (the gateway's
private copy used by the `/file` route): plain `path.resolve`, unconditional
`toLowerCase`, pure string prefixing — no existing-ancestor walk, no symlink
resolution, no platform flag. -/
def gatewayIsWithinWorkspace (workspacePath targetPath : List Char) : Bool :=
  let w := lowerL (pathResolve workspacePath)
  let t := lowerL (pathResolve targetPath)
  t == w || (w ++ ['/']).isPrefixOf t

/-- The segment list of `toWorkspaceFileUri`:
`relativePath.replace(/\\/g, "/").split("/").filter(Boolean)`. -/
def safeSegs (p : List Char) : List (List Char) :=
  (splitSep '/' (slashify p)).filter fun s => !s.isEmpty

/-- `vscode.Uri.joinPath(workspaceUri, ...segments)`, observed through
`fsPath`. -/
def joinPathStr (root : List Char) (segs : List (List Char)) : List Char :=
  match segs with
  | [] => root
  | _ => root ++ '/' :: joinSep '/' segs

/-- `toWorkspaceFileUri` from `path-safety.ts`: the single gate — syntactic
safety first, then workspace containment of the joined URI. -/
def toWorkspaceFileUri (fs : FsModel) (win32 : Bool)
    (workspacePath relativePath : List Char) : Option (List Char) :=
  if !(isSafeRelativePathL relativePath) then none
  else
    let fileUri := joinPathStr workspacePath (safeSegs relativePath)
    if isWithinWorkspace fs win32 workspacePath fileUri then some fileUri else none

/-- Comparison key of the shared `isWithinWorkspace`, read back as segments:
the claim's contract compares the canonicalised paths componentwise. -/
def comparisonSegs (fs : FsModel) (win32 : Bool) (p : List Char) : List (List Char) :=
  pathResolveSegs (normalizeForComparison win32 (resolveExistingAncestorPath fs (pathResolve p)))

/-- Comparison key of the gateway's private `isWithinWorkspace`, read back as
segments: no filesystem access, unconditional lower-casing. -/
def gatewayComparisonSegs (p : List Char) : List (List Char) :=
  pathResolveSegs (lowerL (pathResolve p))

/-! ## JSON values (model of the platform's `JSON.parse`) -/

/-- The opening brace character. -/
def lbraceC : Char := Char.ofNat 123

/-- The closing brace character. -/
def rbraceC : Char := Char.ofNat 125

/-- JSON values as produced by `JSON.parse`. Numeric literals are modelled to
integer precision; no number occurs in any input the claims depend on. -/
inductive JVal where
  | jnull : JVal
  | jbool (b : Bool) : JVal
  | jnum (n : Int) : JVal
  | jstr (s : List Char) : JVal
  | jarr (xs : List JVal) : JVal
  | jobj (fields : List (List Char × JVal)) : JVal

/-- Value of one hexadecimal digit. -/
def hexVal (c : Char) : Option Nat :=
  if '0' ≤ c && c ≤ '9' then some (c.toNat - 48)
  else if 'a' ≤ c && c ≤ 'f' then some (c.toNat - 87)
  else if 'A' ≤ c && c ≤ 'F' then some (c.toNat - 55)
  else none

/-- Single-character JSON string escapes. -/
def escChar (e : Char) : Option Char :=
  if e == '"' then some '"'
  else if e == '\\' then some '\\'
  else if e == '/' then some '/'
  else if e == 'n' then some '\n'
  else if e == 't' then some '\t'
  else if e == 'r' then some '\r'
  else if e == 'b' then some (Char.ofNat 8)
  else if e == 'f' then some (Char.ofNat 12)
  else none

/-- Parse the body of a JSON string (the opening quote already consumed),
returning the decoded characters and the input after the closing quote. -/
def parseJString : Nat → List Char → Option (List Char × List Char)
  | 0, _ => none
  | _ + 1, [] => none
  | fuel + 1, c :: rest =>
    if c == '"' then some ([], rest)
    else if c == '\\' then
      match rest with
      | [] => none
      | e :: rest2 =>
        if e == 'u' then
          match rest2 with
          | h1 :: h2 :: h3 :: h4 :: rest3 =>
            match hexVal h1, hexVal h2, hexVal h3, hexVal h4 with
            | some a, some b, some c2, some d =>
              (parseJString fuel rest3).map fun sr =>
                (Char.ofNat (a * 4096 + b * 256 + c2 * 16 + d) :: sr.1, sr.2)
            | _, _, _, _ => none
          | _ => none
        else
          match escChar e with
          | some ec => (parseJString fuel rest2).map fun sr => (ec :: sr.1, sr.2)
          | none => none
    else (parseJString fuel rest).map fun sr => (c :: sr.1, sr.2)

/-- Leading decimal digits of the input, and the rest. -/
def takeDigits : List Char → List Char × List Char
  | [] => ([], [])
  | c :: cs =>
    if c.isDigit then
      let (ds, r) := takeDigits cs
      (c :: ds, r)
    else ([], c :: cs)

/-- Digit list to a natural number. -/
def digitsToNat (ds : List Char) : Nat :=
  ds.foldl (fun acc c => acc * 10 + (c.toNat - 48)) 0

/-- Parse a JSON numeric literal; the fraction and exponent are consumed but
the value is kept to integer precision (unused by the verified claims). -/
def parseJNum (cs : List Char) : Option (JVal × List Char) :=
  let (neg, cs1) := match cs with
    | '-' :: r => (true, r)
    | _ => (false, cs)
  match takeDigits cs1 with
  | ([], _) => none
  | (ds, r1) =>
    let r2 := match r1 with
      | '.' :: r => (takeDigits r).2
      | _ => r1
    let r3 := match r2 with
      | 'e' :: '+' :: r => (takeDigits r).2
      | 'e' :: '-' :: r => (takeDigits r).2
      | 'e' :: r => (takeDigits r).2
      | 'E' :: '+' :: r => (takeDigits r).2
      | 'E' :: '-' :: r => (takeDigits r).2
      | 'E' :: r => (takeDigits r).2
      | _ => r2
    let n : Int := Int.ofNat (digitsToNat ds)
    some (.jnum (if neg then -n else n), r3)

mutual

/-- Recursive-descent JSON value parser (fuel-indexed; the fuel given by
`parseJson` always suffices for the inputs the claims evaluate). -/
def parseJVal : Nat → List Char → Option (JVal × List Char)
  | 0, _ => none
  | fuel + 1, cs =>
    match ltrim cs with
    | [] => none
    | c :: rest =>
      if c == 'n' then
        if ['u', 'l', 'l'].isPrefixOf rest then some (.jnull, rest.drop 3) else none
      else if c == 't' then
        if ['r', 'u', 'e'].isPrefixOf rest then some (.jbool true, rest.drop 3) else none
      else if c == 'f' then
        if ['a', 'l', 's', 'e'].isPrefixOf rest then some (.jbool false, rest.drop 4) else none
      else if c == '"' then
        (parseJString (rest.length + 1) rest).map fun sr => (.jstr sr.1, sr.2)
      else if c == '[' then
        match ltrim rest with
        | ']' :: r2 => some (.jarr [], r2)
        | r => (parseJArrItems fuel r).map fun xr => (.jarr xr.1, xr.2)
      else if c == lbraceC then
        match ltrim rest with
        | d :: r2 => if d == rbraceC then some (.jobj [], r2) else parseJObjAt fuel (d :: r2)
        | [] => none
      else if c == '-' || c.isDigit then parseJNum (c :: rest)
      else none

/-- Comma-separated JSON array elements up to the closing bracket. -/
def parseJArrItems : Nat → List Char → Option (List JVal × List Char)
  | 0, _ => none
  | fuel + 1, cs =>
    (parseJVal fuel cs).bind fun vr =>
      match ltrim vr.2 with
      | ',' :: r2 => (parseJArrItems fuel r2).map fun xr => (vr.1 :: xr.1, xr.2)
      | ']' :: r2 => some ([vr.1], r2)
      | _ => none

/-- Comma-separated JSON object members up to the closing brace. -/
def parseJObjAt : Nat → List Char → Option (JVal × List Char)
  | 0, _ => none
  | fuel + 1, cs =>
    match ltrim cs with
    | '"' :: r1 =>
      (parseJString (r1.length + 1) r1).bind fun kr =>
        match ltrim kr.2 with
        | ':' :: r2 =>
          (parseJVal fuel r2).bind fun vr =>
            match ltrim vr.2 with
            | ',' :: r3 =>
              (parseJObjAt fuel r3).bind fun or2 =>
                match or2.1 with
                | .jobj fields => some (.jobj ((kr.1, vr.1) :: fields), or2.2)
                | _ => none
            | d :: r3 =>
              if d == rbraceC then some (.jobj [(kr.1, vr.1)], r3) else none
            | [] => none
        | _ => none
    | _ => none

end

/-- Model of the platform's `JSON.parse`: parse one value, allow trailing
whitespace only. -/
def parseJson (cs : List Char) : Option JVal :=
  (parseJVal (cs.length * 2 + 8) cs).bind fun vr =>
    if ltrim vr.2 == [] then some vr.1 else none

/-- JavaScript property lookup on a parsed object (later duplicate keys win,
as in `JSON.parse`). -/
def jLookup (fields : List (List Char × JVal)) (k : List Char) : Option JVal :=
  fields.foldl (fun acc kv => if kv.1 == k then some kv.2 else acc) none

/-- Optional-chaining property access `v?.k`. -/
def jGet (v : JVal) (k : List Char) : Option JVal :=
  match v with
  | .jobj fields => jLookup fields k
  | _ => none

/-- Optional-chaining index access `v?.[0]` (the stream protocol only indexes
arrays). -/
def jIndex0 : JVal → Option JVal
  | .jarr (x :: _) => some x
  | _ => none

/-- `parsed.choices?.[0]?.delta?.content` of the OpenAI-compatible stream
delta (the protocol's `content` field is a string). -/
def deltaContent (v : JVal) : Option (List Char) :=
  match jGet v "choices".toList with
  | some choices =>
    match jIndex0 choices with
    | some c0 =>
      match jGet c0 "delta".toList with
      | some d =>
        match jGet d "content".toList with
        | some (.jstr s) => some s
        | _ => none
      | none => none
    | none => none
  | none => none

/-! ## The LM Studio stream relay (`LLMRouter.chatWithLMStudio` read loop) -/

/-- Extract the complete (newline-terminated) lines from a buffer, returning
them with the trailing unterminated remainder; this is what the inner
`indexOf("\n")` loop of the relay peels off `pending`. -/
def extractLines : List Char → List (List Char) × List Char
  | [] => ([], [])
  | c :: cs =>
    if c == '\n' then
      let (ls, r) := extractLines cs
      ([] :: ls, r)
    else
      match extractLines cs with
      | ([], r) => ([], c :: r)
      | (l :: ls, r) => ((c :: l) :: ls, r)

/-- Mutable state of the relay's read loop. -/
structure RelayState where
  pending : List Char
  streamDone : Bool
  parseErrors : Nat

/-- `processLine` of `chatWithLMStudio`: trim the end, require the `data:`
prefix, strip it and leading whitespace, recognise the `[DONE]` sentinel,
otherwise parse the JSON delta and yield a truthy `content`. -/
def processLine (st : RelayState) (line : List Char) : RelayState × List (List Char) :=
  let normalizedLine := rtrim line
  if !(("data:".toList).isPrefixOf normalizedLine) then (st, [])
  else
    let dataStr := ltrim (normalizedLine.drop 5)
    if dataStr == "[DONE]".toList then ({ st with streamDone := true }, [])
    else
      match parseJson dataStr with
      | some jv =>
        match deltaContent jv with
        | some s => if s.isEmpty then (st, []) else (st, [s])
        | none => (st, [])
      | none => ({ st with parseErrors := st.parseErrors + 1 }, [])

/-- Process extracted lines in order; once `streamDone` is set the generator
returns, so later lines are not processed. -/
def processLines (st : RelayState) : List (List Char) → RelayState × List (List Char)
  | [] => (st, [])
  | l :: ls =>
    if st.streamDone then (st, [])
    else
      let (st1, out) := processLine st l
      let (st2, outs) := processLines st1 ls
      (st2, out ++ outs)

/-- One `reader.read()` arrival: append the decoded chunk to `pending`, peel
off complete lines and process them (after `[DONE]` the generator has already
returned, so the chunk is never seen). -/
def feedChunk (st : RelayState) (chunk : List Char) : RelayState × List (List Char) :=
  if st.streamDone then (st, [])
  else
    let (ls, restPend) := extractLines (st.pending ++ chunk)
    processLines { st with pending := restPend } ls

/-- The final `done` read: flush the trailing unterminated content, if any,
through `processLine`. -/
def relayFinish (st : RelayState) : RelayState × List (List Char) :=
  if st.streamDone then (st, [])
  else if st.pending.isEmpty then (st, [])
  else processLine st st.pending

/-- Fold the relay over the chunk sequence. -/
def relayChunksAux (acc : RelayState × List (List Char)) : List (List Char) → RelayState × List (List Char)
  | [] => acc
  | c :: cs =>
    let (st2, o2) := feedChunk acc.1 c
    relayChunksAux (st2, acc.2 ++ o2) cs

/-- The whole read loop of `chatWithLMStudio` on a network-chunked byte
stream (every byte of the claims' streams is ASCII, so `TextDecoder`'s
streaming decode is the identity on chunk boundaries): the yielded contents
and whether the `[DONE]` sentinel terminated the stream. -/
def runRelay (chunks : List (List Char)) : List (List Char) × Bool :=
  let (st, outs) := relayChunksAux (⟨[], false, 0⟩, []) chunks
  let (st2, o2) := relayFinish st
  (outs ++ o2, st2.streamDone)

/-- Observational equivalence of relay states: once the stream is done the
generator has returned, so the leftover `pending` buffer is dead and states
may differ only there. -/
def RelayObsEq (s1 s2 : RelayState) : Prop :=
  s1.streamDone = s2.streamDone ∧ s1.parseErrors = s2.parseErrors ∧
  (s1.streamDone = false → s1.pending = s2.pending)

/-- The exact stream of the claim, as raw text. -/
def sseClaimStream : String :=
  "data: \x7b\"choices\":[\x7b\"delta\":\x7b\"content\":\"A\"\x7d\x7d]\x7d\n\ndata: \x7b\"choices\":[\x7b\"delta\":\x7b\"content\":\"B\"\x7d\x7d]\x7d\n\ndata: [DONE]\n\n"

/-- One concrete network chunking of the claim's stream, splitting mid-token
inside the first JSON line and mid-word inside the second `data:` marker. -/
def sseClaimChunks : List (List Char) :=
  ["data: \x7b\"choices\":[\x7b\"del".toList,
   "ta\":\x7b\"content\":\"A\"\x7d\x7d]\x7d\n\nda".toList,
   "ta: \x7b\"choices\":[\x7b\"delta\":\x7b\"content\":\"B\"\x7d\x7d]\x7d\n\ndata: [DONE]\n\n".toList]

/-! ## Agent tool results and the tool executor (`LLMRouter.executeAgentTool`) -/

/-- `ToolResult` from `llm-router.ts`. -/
structure ToolResult where
  success : Bool
  result : String
deriving DecidableEq

/-- One `unknown` value of a tool-call parameter map: either a string or a
non-string value carrying its `String(...)` coercion. -/
inductive PV where
  | str (s : String) : PV
  | nonStr (coerced : String) : PV
deriving DecidableEq

/-- A tool call's `Record<string, unknown>` parameter map. -/
abbrev Params := List (String × PV)

/-- Property read `params.k` (`none` models `undefined`). -/
def getParam (ps : Params) (k : String) : Option PV :=
  ps.foldl (fun acc kv => if kv.1 == k then some kv.2 else acc) none

/-- `String(v ?? "")` for a possibly-absent parameter value. -/
def jsStringOf (v : Option PV) : String :=
  match v with
  | some (.str s) => s
  | some (.nonStr coerced) => coerced
  | none => ""

/-- Externally observable side effects of the embedded handlers. -/
inductive Effect where
  | createDir (path : List Char) : Effect
  | writeFile (path : List Char) (content : String) : Effect
  | deleteFile (path : List Char) : Effect
  | terminal (command : String) : Effect
deriving DecidableEq

/-- UTF-8 encoding of one character (`Buffer.from(content, "utf-8")`). -/
def utf8Bytes (c : Char) : List Nat :=
  let n := c.toNat
  if n < 128 then [n]
  else if n < 2048 then [192 + n / 64, 128 + n % 64]
  else if n < 65536 then [224 + n / 4096, 128 + n / 64 % 64, 128 + n % 64]
  else [240 + n / 262144, 128 + n / 4096 % 64, 128 + n / 64 % 64, 128 + n % 64]

/-- UTF-8 encoding of a string as bytes. -/
def utf8Encode (s : String) : List Nat :=
  (s.toList.map utf8Bytes).flatten

/-- The base64 alphabet. -/
def base64Alphabet : List Char :=
  "ABCDEFGHIJKLMNOPQRSTUVWXYZabcdefghijklmnopqrstuvwxyz0123456789+/".toList

/-- One base64 digit. -/
def base64Digit (n : Nat) : Char :=
  base64Alphabet.getD n '='

/-- Standard base64 of a byte list (`buffer.toString("base64")`). -/
def base64Bytes : List Nat → List Char
  | [] => []
  | [b1] => [base64Digit (b1 / 4), base64Digit (b1 % 4 * 16), '=', '=']
  | [b1, b2] =>
    [base64Digit (b1 / 4), base64Digit (b1 % 4 * 16 + b2 / 16),
     base64Digit (b2 % 16 * 4), '=']
  | b1 :: b2 :: b3 :: rest =>
    base64Digit (b1 / 4) :: base64Digit (b1 % 4 * 16 + b2 / 16) ::
      base64Digit (b2 % 16 * 4 + b3 / 64) :: base64Digit (b3 % 64) :: base64Bytes rest

/-- `Buffer.from(content, "utf-8").toString("base64")`. -/
def base64String (content : String) : String :=
  String.mk (base64Bytes (utf8Encode content))

/-- `text.slice(0, n)` (the truncation budget of `read_file`). -/
def jsSlice (s : String) (n : Nat) : String :=
  String.mk (s.toList.take n)

/-- External capabilities consumed by `executeAgentTool`; each fallible call
is an `Except` whose `error` models a thrown exception. `findFiles` stands
for `vscode.workspace.findFiles(pattern, "**/node_modules/**", 200)` composed
with `asRelativePath`; `launchTerminal` stands for
`createTerminal + show + sendText`. -/
structure AgentCaps where
  findFiles : String → Except String (List String)
  readFileText : List Char → Except String String
  workspaceRoot : Option (List Char)
  fsm : FsModel
  win32 : Bool
  terminalToolEnabled : Bool
  launchTerminal : String → Except String Unit

/-- `LLMRouter.toWorkspaceFileUri` (the router's private wrapper): requires an
open workspace folder and a string path, then defers to the shared gate. -/
def routerToWorkspaceFileUri (caps : AgentCaps) (relativePath : Option PV) : Option (List Char) :=
  match caps.workspaceRoot, relativePath with
  | some root, some (.str s) => toWorkspaceFileUri caps.fsm caps.win32 root s.toList
  | _, _ => none

/-- The `switch` body of `executeAgentTool`, before the surrounding
`try/catch`; an `error` is a thrown exception escaping the branch. -/
def executeAgentToolBody (caps : AgentCaps) (name : String) (ps : Params) :
    Except String (ToolResult × List Effect) :=
  if name == "search_workspace" then do
    let query := String.mk (lowerL (jsTrim (jsStringOf (getParam ps "query")).toList))
    let filePattern :=
      match getParam ps "filePattern" with
      | some (.str s) => if (jsTrim s.toList).isEmpty then "**/*" else s
      | _ => "**/*"
    let relativeFiles ← caps.findFiles filePattern
    let filteredFiles :=
      if query == "" then relativeFiles
      else relativeFiles.filter fun file => isInfixL query.toList (lowerL file.toList)
    let results := String.intercalate "\n" (filteredFiles.take 20)
    pure (⟨true, "見つかったファイル(" ++ toString filteredFiles.length ++ "件):\n"
      ++ (if results == "" then "なし" else results)⟩, [])
  else if name == "read_file" then
    match routerToWorkspaceFileUri caps (getParam ps "path") with
    | none => pure (⟨false, "無効なファイルパスです（ワークスペース外は読み取れません）"⟩, [])
    | some fileUri => do
      let text ← caps.readFileText fileUri
      pure (⟨true, jsSlice text 3000⟩, [])
  else if name == "create_file" then
    let pathOk := match getParam ps "path" with
      | some (.str s) => isSafeRelativePath s
      | _ => false
    if !pathOk then
      pure (⟨false, "無効なファイルパスです（相対パスのみ使用可能）"⟩, [])
    else
      match getParam ps "content" with
      | some (.str content) =>
        let filePath := jsStringOf (getParam ps "path")
        pure (⟨true, "__DOWNLOAD_FILE__:" ++ filePath ++ ":" ++ base64String content
          ++ ":__END_DOWNLOAD__"⟩, [])
      | _ => pure (⟨false, "無効なファイル内容です（文字列のみ使用可能）"⟩, [])
  else if name == "run_terminal" then
    if !caps.terminalToolEnabled then
      pure (⟨false, "run_terminal は無効です。設定 copilotBrowserBridge.enableAgentTerminalTool を true にしてください。"⟩, [])
    else
      let command := match getParam ps "command" with
        | some (.str s) => String.mk (jsTrim s.toList)
        | _ => ""
      if command == "" then
        pure (⟨false, "無効なコマンドです（空文字は実行できません）"⟩, [])
      else do
        caps.launchTerminal command
        pure (⟨true, "コマンドを実行しました: " ++ command⟩, [.terminal command])
  else if name == "browser_action" then
    let action := match getParam ps "action" with
      | some (.str s) => String.mk (jsTrim s.toList)
      | _ => ""
    let selector := match getParam ps "selector" with
      | some (.str s) => s
      | _ => ""
    let value := match getParam ps "value" with
      | some (.str s) => s
      | _ => ""
    if action == "" then
      pure (⟨false, "無効なbrowser_actionです（actionが必要です）"⟩, [])
    else
      let actionCommand :=
        if action == "navigate" then "[ACTION: navigate, " ++ (if value == "" then selector else value) ++ "]"
        else if action == "click" then "[ACTION: click, " ++ selector ++ "]"
        else if action == "type" then "[ACTION: type, " ++ selector ++ ", " ++ value ++ "]"
        else if action == "scroll" then "[ACTION: scroll, " ++ (if value == "" then "down" else value) ++ "]"
        else if action == "back" then "[ACTION: back]"
        else if action == "forward" then "[ACTION: forward]"
        else if action == "reload" then "[ACTION: reload]"
        else "[ACTION: " ++ action ++ ", " ++ (if selector == "" then value else selector) ++ "]"
      pure (⟨true, actionCommand⟩, [])
  else
    pure (⟨false, "不明なツール: " ++ name⟩, [])

/-- `executeAgentTool`: the `switch` wrapped in the `try/catch` that converts
any thrown exception into a failure `ToolResult` — the executor never
throws. -/
def executeAgentTool (caps : AgentCaps) (name : String) (ps : Params) :
    ToolResult × List Effect :=
  match executeAgentToolBody caps name ps with
  | .ok r => r
  | .error e => (⟨false, "ツール実行エラー: " ++ e⟩, [])

/-! ## The bounded agent tool loop (`LLMRouter.chatWithCopilotAgent`) -/

/-- One buffered `LanguageModelToolCallPart`. -/
structure AToolCall where
  callId : String
  name : String
  params : Params

/-- One streamed or replayed message part. -/
inductive AgentPart where
  | text (s : String) : AgentPart
  | call (c : AToolCall) : AgentPart
  | result (callId : String) (content : String) : AgentPart

/-- One chat message of the agent conversation. -/
structure AgentMsg where
  role : String
  parts : List AgentPart

/-- One model response: the streamed parts in arrival order. -/
structure AgentResponse where
  parts : List AgentPart

/-- The tool-call parts buffered while streaming one response. -/
def responseToolCalls (r : AgentResponse) : List AToolCall :=
  r.parts.filterMap fun p =>
    match p with
    | .call c => some c
    | _ => none

/-- The text parts forwarded while streaming one response. -/
def responseTexts (r : AgentResponse) : List String :=
  r.parts.filterMap fun p =>
    match p with
    | .text s => some s
    | _ => none

/-- `maxIterations` from `chatWithCopilotAgent`. -/
def maxIterations : Nat := 5

/-- Observable outcome of the tool loop: everything yielded, the number of
`model.sendRequest` invocations, and the accumulated message list at exit. -/
structure AgentTrace where
  outputs : List String
  invocations : Nat
  finalMessages : List AgentMsg

/-- The `while (continueLoop && iterationCount < maxIterations)` loop of
`chatWithCopilotAgent`: invoke the model, forward text, buffer tool calls;
no tool calls ends the loop, otherwise execute each call in arrival order,
yield the progress lines, append the assistant tool-call turn and the user
tool-result turn, and go round again. -/
def agentToolLoop (model : List AgentMsg → AgentResponse)
    (exec : String → Params → ToolResult) (msgs : List AgentMsg)
    (iterationCount : Nat) : AgentTrace :=
  if iterationCount < maxIterations then
    let resp := model msgs
    let texts := responseTexts resp
    let toolCalls := responseToolCalls resp
    if toolCalls.isEmpty then
      ⟨texts, iterationCount + 1, msgs⟩
    else
      let executed := toolCalls.map fun c => (c, exec c.name c.params)
      let progress := (executed.map fun cr =>
        ["\n\n🔧 ツール実行: " ++ cr.1.name ++ "\n", "📋 結果: " ++ cr.2.result ++ "\n"]).flatten
      let nextMsgs := msgs ++
        [⟨"assistant", toolCalls.map AgentPart.call⟩,
         ⟨"user", executed.map fun cr => AgentPart.result cr.1.callId cr.2.result⟩]
      let rest := agentToolLoop model exec nextMsgs (iterationCount + 1)
      ⟨texts ++ progress ++ rest.outputs, rest.invocations, rest.finalMessages⟩
  else ⟨[], iterationCount, msgs⟩
termination_by maxIterations - iterationCount

/-- The loop as entered by `chatWithCopilotAgent` (`iterationCount = 0`). -/
def runAgentLoop (model : List AgentMsg → AgentResponse)
    (exec : String → Params → ToolResult) (msgs : List AgentMsg) : AgentTrace :=
  agentToolLoop model exec msgs 0

/-! ## The request gateway (`BridgeServer` in `extension.ts`) -/

/-- `FileStat.type` bit of a regular file (`vscode.FileType.File`). -/
def fileTypeBit : Nat := 1

/-- `BridgeServer.isRegularFile`: `(fileType & File) === File`. -/
def isRegularFile (fileType : Nat) : Bool :=
  fileType &&& fileTypeBit == fileTypeBit

/-- `/file` route actions. -/
inductive FileAction where
  | create : FileAction
  | read : FileAction
  | append : FileAction
  | delete : FileAction
deriving DecidableEq

/-- A validated `/file` request body. -/
structure FileOpRequest where
  action : FileAction
  path : String
  content : Option String
deriving DecidableEq

/-- The named fields of a parsed body, when it is `typeof "object"` and
truthy: an object's fields, an array's (empty) named-field map. -/
def jvalFields : JVal → Option (List (List Char × JVal))
  | .jobj fields => some fields
  | .jarr _ => some []
  | _ => none

/-- `BridgeServer.validateFileOperationRequest`. -/
def validateFileOperationRequest (jv : JVal) : Except String FileOpRequest :=
  match jvalFields jv with
  | none => .error "Invalid file operation body"
  | some fields =>
    let act? : Option FileAction :=
      match jLookup fields "action".toList with
      | some (.jstr a) =>
        if a == "create".toList then some .create
        else if a == "read".toList then some .read
        else if a == "append".toList then some .append
        else if a == "delete".toList then some .delete
        else none
      | _ => none
    match act? with
    | none => .error "Invalid action"
    | some act =>
      match jLookup fields "path".toList with
      | some (.jstr p) =>
        match jLookup fields "content".toList with
        | none => .ok ⟨act, String.mk p, none⟩
        | some (.jstr c) => .ok ⟨act, String.mk p, some (String.mk c)⟩
        | some _ => .error "Invalid file content"
      | _ => .error "Invalid file path"

/-- Response bodies written by the gateway, kept structured (the source
serialises them with `JSON.stringify`). -/
inductive RBody where
  | errMsg (m : String) : RBody
  | healthB (status version : String) : RBody
  | okMsg (m : String) : RBody
  | okContent (c : String) : RBody
  | route (name : String) : RBody
  | empty : RBody
deriving DecidableEq

/-- One HTTP response: status code and structured body. -/
structure RResp where
  status : Nat
  body : RBody
deriving DecidableEq

/-- External workspace filesystem consumed by the `/file` route:
`vscode.workspace.fs.stat` (the `FileType` bitmask) and `readFile`. -/
structure GwFs where
  stat : List Char → Option Nat
  readFile : List Char → String

/-- `BridgeServer.getParentDirectoryUri`. -/
def getParentDirectoryUri (root : List Char) (relativePath : String) : List Char :=
  let segments := (splitSep '/' (slashify relativePath.toList)).filter fun s => !s.isEmpty
  let parentSegments := segments.dropLast
  if parentSegments.length > 0 then joinPathStr root parentSegments else root

/-- `BridgeServer.handleFileOperation` from the parsed request body onwards
(`readJsonBody`'s emptiness and JSON checks included; the byte-size cap of
`readBody` is enforced before this point). Returns the response and the
filesystem mutations performed. -/
def handleFileOperationM (gfs : GwFs) (workspaceRoot : Option (List Char))
    (body : String) : RResp × List Effect :=
  if jsTrim body.toList == [] then (⟨400, .errMsg "Request body is required"⟩, [])
  else
    match parseJson body.toList with
    | none => (⟨400, .errMsg "Invalid JSON body"⟩, [])
    | some jv =>
      match validateFileOperationRequest jv with
      | .error e => (⟨400, .errMsg e⟩, [])
      | .ok v =>
        match workspaceRoot with
        | none => (⟨400, .errMsg "No workspace folder open"⟩, [])
        | some root =>
          if !(isSafeRelativePath v.path) then (⟨400, .errMsg "Invalid file path"⟩, [])
          else
            let pathSegments := splitSep '/' (slashify v.path.toList)
            let fileUri := joinPathStr root pathSegments
            if !(gatewayIsWithinWorkspace root fileUri) then
              (⟨400, .errMsg "Path escapes workspace"⟩, [])
            else
              match v.action with
              | .create =>
                match gfs.stat fileUri with
                | some t =>
                  if !(isRegularFile t) then (⟨400, .errMsg "Target path is not a file"⟩, [])
                  else
                    (⟨200, .okMsg ("Created " ++ v.path)⟩,
                     [.createDir (getParentDirectoryUri root v.path),
                      .writeFile fileUri (v.content.getD "")])
                | none =>
                  (⟨200, .okMsg ("Created " ++ v.path)⟩,
                   [.createDir (getParentDirectoryUri root v.path),
                    .writeFile fileUri (v.content.getD "")])
              | .read =>
                match gfs.stat fileUri with
                | none => (⟨404, .errMsg "File not found"⟩, [])
                | some t =>
                  if !(isRegularFile t) then (⟨400, .errMsg "Target path is not a file"⟩, [])
                  else (⟨200, .okContent (gfs.readFile fileUri)⟩, [])
              | .append =>
                match gfs.stat fileUri with
                | some t =>
                  if !(isRegularFile t) then (⟨400, .errMsg "Target path is not a file"⟩, [])
                  else
                    (⟨200, .okMsg ("Appended to " ++ v.path)⟩,
                     [.createDir (getParentDirectoryUri root v.path),
                      .writeFile fileUri (gfs.readFile fileUri ++ v.content.getD "")])
                | none =>
                  (⟨200, .okMsg ("Appended to " ++ v.path)⟩,
                   [.createDir (getParentDirectoryUri root v.path),
                    .writeFile fileUri ("" ++ v.content.getD "")])
              | .delete =>
                match gfs.stat fileUri with
                | none => (⟨404, .errMsg "File not found"⟩, [])
                | some t =>
                  if !(isRegularFile t) then (⟨400, .errMsg "Target path is not a file"⟩, [])
                  else (⟨200, .okMsg ("Deleted " ++ v.path)⟩, [.deleteFile fileUri])

/-- Gateway configuration: the `allowedExtensionOrigins` setting. -/
structure GwConfig where
  allowedExtensionOrigins : List String

/-- `DEFAULT_ALLOWED_EXTENSION_ORIGINS`. -/
def defaultAllowedOrigin : String :=
  "chrome-extension://nggfpdadfepkbpjfnpcihagbnnfpeian"

/-- The `^chrome-extension:\/\/[a-p]{32}$` pattern test. -/
def isExtensionIdOrigin (s : String) : Bool :=
  let cs := s.toList
  ("chrome-extension://".toList).isPrefixOf cs
    && (cs.drop 19).length == 32
    && (cs.drop 19).all fun c => 'a' ≤ c && c ≤ 'p'

/-- `BridgeServer.isAllowedOrigin`: the built-in default plus the configured
entries that survive trimming and the strict extension-id pattern. -/
def isAllowedOrigin (cfg : GwConfig) (origin : String) : Bool :=
  let normalizedConfigured := (cfg.allowedExtensionOrigins.map
    fun v => String.mk (jsTrim v.toList)).filter isExtensionIdOrigin
  origin == defaultAllowedOrigin || normalizedConfigured.contains origin

/-- One inbound HTTP request as seen by the gateway's handler: `pathname` is
the outcome of `new URL(req.url || "/", base)` (`none` models the `catch`
arm), `origin` the raw `Origin` header, `client` the effective
`x-copilot-bridge-client` value (first element if repeated). -/
structure GwRequest where
  method : String
  pathname : Option String
  origin : Option String
  client : Option String
  body : String

/-- Truthiness of the request origin (`requestOrigin &&` in the source: an
absent header or an empty string is falsy). -/
def originTruthy (o : Option String) : Bool :=
  match o with
  | some s => !(s == "")
  | none => false

/-- `BridgeServer.hasTrustedClientHeader`. -/
def hasTrustedClientHeader (client : Option String) : Bool :=
  client == some "chrome-extension"

/-- Observable outcome of one request: the response, whether the request body
was read before responding, and the filesystem mutations performed. -/
structure GwResult where
  resp : RResp
  bodyRead : Bool
  effects : List Effect
deriving DecidableEq

/-- The request handler installed by `BridgeServer.start`, branch for branch:
the origin screen, the CORS/OPTIONS short-circuit, URL parsing, the
health-check exemption, the origin-required and trusted-client checks, then
route dispatch. The `/health` and `/file` routes are modelled in full;
`other` supplies the responses of the remaining routes (chat, models,
playwright), which read the body exactly when the source's handlers call
`readJsonBody`. -/
def handleRequest (cfg : GwConfig) (gfs : GwFs) (workspaceRoot : Option (List Char))
    (other : String → RResp) (req : GwRequest) : GwResult :=
  if originTruthy req.origin && !(isAllowedOrigin cfg (req.origin.getD "")) then
    ⟨⟨403, .errMsg "Forbidden origin"⟩, false, []⟩
  else if req.method == "OPTIONS" then ⟨⟨204, .empty⟩, false, []⟩
  else
    match req.pathname with
    | none => ⟨⟨400, .errMsg "Invalid request URL"⟩, false, []⟩
    | some pn =>
      let isHealthCheck := pn == "/health" && req.method == "GET"
      if !isHealthCheck && !(originTruthy req.origin) then
        ⟨⟨403, .errMsg "Origin header is required"⟩, false, []⟩
      else if !isHealthCheck && !(hasTrustedClientHeader req.client) then
        ⟨⟨401, .errMsg "Unauthorized client"⟩, false, []⟩
      else if isHealthCheck then ⟨⟨200, .healthB "ok" "0.1.0"⟩, false, []⟩
      else if pn == "/chat" && req.method == "POST" then ⟨other "chat", true, []⟩
      else if pn == "/models" && req.method == "GET" then ⟨other "models", false, []⟩
      else if pn == "/file" && req.method == "POST" then
        let (r, effs) := handleFileOperationM gfs workspaceRoot req.body
        ⟨r, true, effs⟩
      else if pn == "/playwright" && req.method == "POST" then ⟨other "playwright", true, []⟩
      else if pn == "/playwright/status" && req.method == "GET" then
        ⟨other "playwrightStatus", false, []⟩
      else ⟨⟨404, .errMsg "Not found"⟩, false, []⟩

/-! ## Fixtures used by concrete witnesses and counterexamples -/

/-- A filesystem in which every path exists and is its own canonical path. -/
def fsIdentity : FsModel :=
  ⟨fun _ => true, fun p => some p⟩

/-- A filesystem with root `/ws` and a symlink `/ws/link` pointing to
`/outside`. -/
def fsEscapingLink : FsModel :=
  ⟨fun p => String.mk p == "/" || String.mk p == "/ws" || String.mk p == "/ws/link"
      || String.mk p == "/outside",
   fun p => if String.mk p == "/ws/link" then some "/outside".toList else some p⟩

/-- A filesystem in which only `/ws` (and the root) exist. -/
def fsOnlyRoot : FsModel :=
  ⟨fun p => String.mk p == "/" || String.mk p == "/ws", fun p => some p⟩

/-- Trivial agent capabilities (nothing found, everything readable as ""). -/
def capsTrivial : AgentCaps :=
  ⟨fun _ => .ok [], fun _ => .ok "", none, ⟨fun _ => false, fun _ => none⟩,
   false, false, fun _ => .ok ()⟩

/-- A workspace filesystem for the gateway in which `/ws/sub` is a directory
and nothing else exists. -/
def gfsDirOnly : GwFs :=
  ⟨fun p => if String.mk p == "/ws/sub" then some 2 else none, fun _ => ""⟩

/-- Gateway configuration with no extra configured origins. -/
def cfgDefault : GwConfig := ⟨[]⟩

/-- Placeholder responses for the routes outside the modelled scope. -/
def otherRoutesStub : String → RResp := fun _ => ⟨500, .empty⟩

/-- A model that responds to every message list with one tool call. -/
def modelAlwaysTool : List AgentMsg → AgentResponse :=
  fun _ => ⟨[.call ⟨"c1", "browser_action", []⟩]⟩

/-- A tool executor stub for loop fixtures. -/
def execStub : String → Params → ToolResult := fun _ _ => ⟨false, "r"⟩

/-- A plain path segment: non-empty, separator-free, and not a dot segment. -/
def CleanSeg (s : List Char) : Prop :=
  s ≠ [] ∧ '/' ∉ s ∧ s ≠ ['.'] ∧ s ≠ ['.', '.']

/-- A path whose segments are all plain. -/
def CleanSegs (l : List (List Char)) : Prop :=
  ∀ s ∈ l, CleanSeg s

/-- The spec's conditions on a safe relative path, stated on the segments of
the normalised string: non-empty after normalisation and trimming, and every
field of the `/`-split is non-empty (this covers the no-absolute-prefix and
no-trailing-slash conditions), free of `:` (this covers the scheme-marker and
drive-letter conditions), and not a `.` or `..` segment. -/
def SafeSpecConditions (p : String) : Prop :=
  jsTrim (slashify p.toList) ≠ [] ∧
  ∀ s ∈ splitSep '/' (jsTrim (slashify p.toList)),
    s ≠ [] ∧ ':' ∉ s ∧ s ≠ ['.'] ∧ s ≠ ['.', '.']

/-! ## Theorems

Helper lemmas first, then one theorem per claim (witnesses and
counterexamples alongside their claims). -/

/-- `splitSep` never returns the empty list of fields. -/
theorem splitSep_ne_nil (sep : Char) (l : List Char) : splitSep sep l ≠ [] := by
  induction l with
  | nil => simp [splitSep]
  | cons c cs ih =>
    simp only [splitSep]
    split
    · simp
    · split
      · simp
      · simp

/-- Joining the fields of a split restores the original string. -/
theorem joinSep_splitSep (sep : Char) (l : List Char) :
    joinSep sep (splitSep sep l) = l := by
  induction l with
  | nil => simp [splitSep, joinSep]
  | cons c cs ih =>
    simp only [splitSep]
    by_cases hc : c == sep
    · simp only [hc, if_true]
      rcases hr : splitSep sep cs with _ | ⟨h, t⟩
      · exact absurd hr (splitSep_ne_nil sep cs)
      · have : joinSep sep ([] :: h :: t) = sep :: joinSep sep (h :: t) := by
          simp [joinSep]
        rw [this, hr.symm, ih]
        have := eq_of_beq hc
        simp [this]
    · simp only [hc, if_false]
      rcases hr : splitSep sep cs with _ | ⟨h, t⟩
      · exact absurd hr (splitSep_ne_nil sep cs)
      · rw [hr] at ih
        rcases t with _ | ⟨h2, t2⟩
        · simp only [joinSep] at ih ⊢
          rw [ih]
        · simp only [joinSep] at ih ⊢
          rw [List.cons_append, ih]

/-- A character other than the separator occurs in a join exactly when it
occurs in one of the fields. -/
theorem mem_joinSep {sep c : Char} (hne : c ≠ sep) (segs : List (List Char)) :
    c ∈ joinSep sep segs ↔ ∃ s ∈ segs, c ∈ s := by
  induction segs with
  | nil => simp [joinSep]
  | cons s rest ih =>
    rcases rest with _ | ⟨s2, rest2⟩
    · simp [joinSep]
    · have hj : joinSep sep (s :: s2 :: rest2) = s ++ sep :: joinSep sep (s2 :: rest2) := rfl
      rw [hj]
      constructor
      · intro hmem
        rcases List.mem_append.mp hmem with hs | hs
        · exact ⟨s, List.mem_cons_self s _, hs⟩
        · rcases List.mem_cons.mp hs with hs | hs
          · exact absurd hs hne
          · rcases ih.mp hs with ⟨x, hx, hcx⟩
            exact ⟨x, List.mem_cons_of_mem s hx, hcx⟩
      · rintro ⟨x, hx, hcx⟩
        rcases List.mem_cons.mp hx with hx | hx
        · exact List.mem_append.mpr (Or.inl (hx ▸ hcx))
        · exact List.mem_append.mpr
            (Or.inr (List.mem_cons_of_mem sep (ih.mpr ⟨x, hx, hcx⟩)))

/-- Splitting a string that starts with the separator yields a leading empty
field. -/
theorem splitSep_cons_sep (sep : Char) (l : List Char) :
    splitSep sep (sep :: l) = [] :: splitSep sep l := by
  simp [splitSep]

/-- Splitting a string that ends with the separator yields a trailing empty
field. -/
theorem splitSep_append_sep (sep : Char) (l : List Char) :
    splitSep sep (l ++ [sep]) = splitSep sep l ++ [[]] := by
  induction l with
  | nil => simp [splitSep]
  | cons c cs ih =>
    by_cases hc : c == sep
    · have h1 : splitSep sep ((c :: cs) ++ [sep]) = [] :: splitSep sep (cs ++ [sep]) := by
        simp [splitSep, hc]
      have h2 : splitSep sep (c :: cs) = [] :: splitSep sep cs := by
        simp [splitSep, hc]
      rw [h1, h2, ih]
      rfl
    · rcases hr : splitSep sep cs with _ | ⟨h, t⟩
      · exact absurd hr (splitSep_ne_nil sep cs)
      · have hr2 : splitSep sep (cs ++ [sep]) = h :: (t ++ [[]]) := by
          rw [ih, hr]
          rfl
        show splitSep sep (c :: (cs ++ [sep])) = splitSep sep (c :: cs) ++ [[]]
        simp [splitSep, hc, hr, hr2]

/-- Membership of one character is what `includes` of its singleton tests. -/
theorem isInfixL_singleton (c : Char) (l : List Char) :
    isInfixL [c] l = true ↔ c ∈ l := by
  induction l with
  | nil => simp [isInfixL, List.isPrefixOf]
  | cons d cs ih =>
    simp only [isInfixL, Bool.or_eq_true, ih]
    constructor
    · rintro (h | h)
      · have hcd : c = d := by
          simpa [List.isPrefixOf] using h
        exact hcd ▸ List.mem_cons_self c cs
      · exact List.mem_cons_of_mem d h
    · intro h
      rcases List.mem_cons.mp h with h | h
      · exact Or.inl (by simp [List.isPrefixOf, h])
      · exact Or.inr h

/-- A substring hit puts every character of the pattern into the string. -/
theorem isInfixL_mem {pat l : List Char} (h : isInfixL pat l = true) :
    ∀ c ∈ pat, c ∈ l := by
  induction l with
  | nil =>
    simp only [isInfixL] at h
    have : pat = [] := by
      cases pat with
      | nil => rfl
      | cons p ps => simp [List.isPrefixOf] at h
    simp [this]
  | cons d cs ih =>
    simp only [isInfixL, Bool.or_eq_true] at h
    rcases h with h | h
    · have hpre : pat <+: d :: cs := by
        exact List.isPrefixOf_iff_prefix.mp h
      intro c hc
      exact hpre.subset hc
    · intro c hc
      exact List.mem_cons_of_mem d (ih h c hc)

/-- Trimming commutes with a character map that preserves the whitespace
classification. -/
theorem ltrim_map {f : Char → Char}
    (hf : ∀ c, isJsWhitespace (f c) = isJsWhitespace c) (l : List Char) :
    ltrim (l.map f) = (ltrim l).map f := by
  induction l with
  | nil => simp [ltrim]
  | cons c cs ih =>
    simp only [List.map_cons, ltrim, hf c]
    split
    · exact ih
    · rfl

/-- `rtrim` commutes with a whitespace-preserving character map. -/
theorem rtrim_map {f : Char → Char}
    (hf : ∀ c, isJsWhitespace (f c) = isJsWhitespace c) (l : List Char) :
    rtrim (l.map f) = (rtrim l).map f := by
  unfold rtrim
  rw [← List.map_reverse, ltrim_map hf, List.map_reverse]

/-- `trim` commutes with a whitespace-preserving character map. -/
theorem jsTrim_map {f : Char → Char}
    (hf : ∀ c, isJsWhitespace (f c) = isJsWhitespace c) (l : List Char) :
    jsTrim (l.map f) = (jsTrim l).map f := by
  unfold jsTrim
  rw [ltrim_map hf, rtrim_map hf]

/-- Backslash replacement preserves the whitespace classification. -/
theorem slashify_whitespace (c : Char) :
    isJsWhitespace (if c == '\\' then '/' else c) = isJsWhitespace c := by
  split
  · next h =>
    have := eq_of_beq h
    subst this
    rfl
  · rfl

/-- Trimming before or after backslash replacement is the same. -/
theorem jsTrim_slashify (l : List Char) :
    jsTrim (slashify l) = slashify (jsTrim l) := by
  unfold slashify
  exact jsTrim_map slashify_whitespace l

/-- C3. `isSafeRelativePath(p)` returns true exactly when `p`, after
normalising backslashes to forward slashes and trimming, is non-empty and
every segment of its `/`-split is non-empty (hence no absolute prefix and no
trailing slash), contains no `:` (hence no `://` scheme marker and no drive
letter), and is not `.` or `..`; in particular every relative path containing
a `..` or `.` segment, an absolute prefix, a scheme marker, or a trailing
slash is rejected. -/
theorem C3_isSafeRelativePath_spec (p : String) :
    isSafeRelativePath p = true ↔ SafeSpecConditions p := by
  unfold isSafeRelativePath SafeSpecConditions
  constructor
  · intro h
    simp [isSafeRelativePathL] at h
    obtain ⟨hraw, ⟨⟨hpre, hscheme⟩, hcolon⟩, hsuf, hemp, hdots⟩ := h
    refine ⟨?_, ?_⟩
    · intro hnil
      rw [jsTrim_slashify] at hnil
      exact hraw (List.map_eq_nil_iff.mp hnil)
    · intro s hs
      refine ⟨?_, ?_, (hdots s hs).1, (hdots s hs).2⟩
      · intro hnil
        subst hnil
        exact hemp hs
      · intro hcs
        have hmem : ':' ∈ jsTrim (slashify p.toList) := by
          rw [← joinSep_splitSep '/' (jsTrim (slashify p.toList))]
          exact (mem_joinSep (by decide) _).mpr ⟨s, hs, hcs⟩
        have hinf : isInfixL [':'] (jsTrim (slashify p.toList)) = true :=
          (isInfixL_singleton ':' _).mpr hmem
        have hcolon2 : isInfixL [':'] (jsTrim (slashify p.toList)) = false := hcolon
        exact absurd (hinf.symm.trans hcolon2) (by decide)
  · rintro ⟨hne, hsegs⟩
    have h1 : ¬ jsTrim p.toList == [] := by
      rw [jsTrim_slashify] at hne
      simp only [beq_iff_eq]
      intro hx
      rw [hx] at hne
      simp [slashify] at hne
    have hnocolon : ¬ isInfixL [':'] (jsTrim (slashify p.toList)) := by
      intro hx
      have : ':' ∈ jsTrim (slashify p.toList) := (isInfixL_singleton ':' _).mp hx
      rw [← joinSep_splitSep '/' (jsTrim (slashify p.toList))] at this
      rcases (mem_joinSep (by decide) _).mp this with ⟨s, hs, hcs⟩
      exact (hsegs s hs).2.1 hcs
    have hnoscheme : ¬ isInfixL [':', '/', '/'] (jsTrim (slashify p.toList)) := by
      intro hx
      have : ':' ∈ jsTrim (slashify p.toList) := isInfixL_mem hx ':' (by simp)
      exact hnocolon ((isInfixL_singleton ':' _).mpr this)
    have hnopre : ¬ ['/'].isPrefixOf (jsTrim (slashify p.toList)) := by
      intro hx
      rcases List.isPrefixOf_iff_prefix.mp hx with ⟨t, ht⟩
      have hsplit : splitSep '/' (jsTrim (slashify p.toList)) = [] :: splitSep '/' t := by
        rw [← ht]
        exact splitSep_cons_sep '/' t
      have : ([] : List Char) ∈ splitSep '/' (jsTrim (slashify p.toList)) := by
        rw [hsplit]
        exact List.mem_cons_self _ _
      exact (hsegs [] this).1 rfl
    have hnosuf : ¬ ['/'].isSuffixOf (jsTrim (slashify p.toList)) := by
      intro hx
      rcases List.isSuffixOf_iff_suffix.mp hx with ⟨t, ht⟩
      have hsplit : splitSep '/' (jsTrim (slashify p.toList)) = splitSep '/' t ++ [[]] := by
        rw [← ht]
        exact splitSep_append_sep '/' t
      have : ([] : List Char) ∈ splitSep '/' (jsTrim (slashify p.toList)) := by
        rw [hsplit]
        simp
      exact (hsegs [] this).1 rfl
    have h4 : ¬ (splitSep '/' (jsTrim (slashify p.toList))).any (fun s => s.isEmpty) := by
      rw [Bool.not_eq_true, List.any_eq_false]
      intro s hs
      simpa [List.isEmpty_iff] using (hsegs s hs).1
    simp [isSafeRelativePathL]
    rw [Bool.not_eq_true] at hnoscheme hnocolon
    refine ⟨by simpa using h1, ⟨⟨?_, hnoscheme⟩, hnocolon⟩, ?_, ?_, ?_⟩
    · intro hx
      exact hnopre (List.isPrefixOf_iff_prefix.mpr hx)
    · intro hx
      exact hnosuf (List.isSuffixOf_iff_suffix.mpr hx)
    · intro hx
      rw [Bool.not_eq_true, List.any_eq_false] at h4
      simpa using h4 [] hx
    · intro x hx
      exact ⟨(hsegs x hx).2.2.1, (hsegs x hx).2.2.2⟩

/-- Witness for C3: `notes/a.md` satisfies the spec's conditions and is
accepted; `../x` is rejected. -/
theorem C3_isSafeRelativePath_spec_witness :
    isSafeRelativePath "notes/a.md" = true ∧ isSafeRelativePath "../x" = false := by
  constructor
  · exact (C3_isSafeRelativePath_spec "notes/a.md").mpr (by unfold SafeSpecConditions; decide)
  · have hfalse : ¬ (isSafeRelativePath "../x" = true) := by
      intro h
      have hc := (C3_isSafeRelativePath_spec "../x").mp h
      unfold SafeSpecConditions at hc
      revert hc
      decide
    simpa using hfalse

/-- The tool loop never exceeds `maxIterations` model invocations, whatever
round it is entered at. -/
theorem agentToolLoop_invocations_le (model : List AgentMsg → AgentResponse)
    (exec : String → Params → ToolResult) :
    ∀ n k msgs, maxIterations - k = n → k ≤ maxIterations →
      (agentToolLoop model exec msgs k).invocations ≤ maxIterations := by
  intro n
  induction n with
  | zero =>
    intro k msgs h0 hk
    have hk5 : ¬ k < maxIterations := by omega
    rw [agentToolLoop, if_neg hk5]
    exact hk
  | succ n ih =>
    intro k msgs hn hk
    rw [agentToolLoop]
    by_cases hlt : k < maxIterations
    · rw [if_pos hlt]
      by_cases he : (responseToolCalls (model msgs)).isEmpty
      · simp only [he, if_true]
        show k + 1 ≤ maxIterations
        omega
      · simp only [he, if_false, Bool.false_eq_true]
        exact ih (k + 1) _ (by omega) (by omega)
    · rw [if_neg hlt]
      exact hk

/-- Against a model whose every response carries a tool call, the loop always
runs the full `maxIterations` rounds. -/
theorem agentToolLoop_invocations_eq (model : List AgentMsg → AgentResponse)
    (exec : String → Params → ToolResult)
    (htools : ∀ ms, responseToolCalls (model ms) ≠ []) :
    ∀ n k msgs, maxIterations - k = n → k ≤ maxIterations →
      (agentToolLoop model exec msgs k).invocations = maxIterations := by
  intro n
  induction n with
  | zero =>
    intro k msgs h0 hk
    have hk5 : ¬ k < maxIterations := by omega
    rw [agentToolLoop, if_neg hk5]
    show k = maxIterations
    omega
  | succ n ih =>
    intro k msgs hn hk
    rw [agentToolLoop]
    by_cases hlt : k < maxIterations
    · rw [if_pos hlt]
      have he : (responseToolCalls (model msgs)).isEmpty = false := by
        rcases hr : responseToolCalls (model msgs) with _ | _
        · exact absurd hr (htools msgs)
        · rfl
      simp only [he, Bool.false_eq_true, if_false]
      exact ih (k + 1) _ (by omega) (by omega)
    · rw [if_neg hlt]
      show k = maxIterations
      omega

/-- C4. The agent tool loop invokes the model at most 5 times per request,
and against a model whose every response contains at least one tool call it
terminates after exactly 5 invocations even though the model would still
issue tool calls on the final conversation. -/
theorem C4_agent_loop_bound :
    (∀ (model : List AgentMsg → AgentResponse) (exec : String → Params → ToolResult)
       (msgs : List AgentMsg), (runAgentLoop model exec msgs).invocations ≤ 5) ∧
    (∀ (model : List AgentMsg → AgentResponse) (exec : String → Params → ToolResult)
       (msgs : List AgentMsg),
       (∀ ms, responseToolCalls (model ms) ≠ []) →
       (runAgentLoop model exec msgs).invocations = 5 ∧
       responseToolCalls (model (runAgentLoop model exec msgs).finalMessages) ≠ []) := by
  constructor
  · intro model exec msgs
    exact agentToolLoop_invocations_le model exec maxIterations 0 msgs rfl (by omega)
  · intro model exec msgs htools
    refine ⟨?_, htools _⟩
    exact agentToolLoop_invocations_eq model exec htools maxIterations 0 msgs rfl (by omega)

/-- Witness for C4: a concrete always-tool-calling model drives the loop to
exactly five invocations. -/
theorem C4_agent_loop_bound_witness :
    (runAgentLoop modelAlwaysTool execStub []).invocations = 5 ∧
    responseToolCalls (modelAlwaysTool (runAgentLoop modelAlwaysTool execStub []).finalMessages) ≠ [] :=
  C4_agent_loop_bound.2 modelAlwaysTool execStub []
    (fun ms => by simp [modelAlwaysTool, responseToolCalls])

/-- C7. The tool executor never throws: a thrown exception from any tool body
is caught and reported as a failure `ToolResult` carrying its message, and an
unknown tool name yields a failure `ToolResult` naming the tool — never a
crash. -/
theorem C7_executeAgentTool_never_throws :
    (∀ (caps : AgentCaps) (name : String) (ps : Params) (e : String),
       executeAgentToolBody caps name ps = .error e →
       executeAgentTool caps name ps = (⟨false, "ツール実行エラー: " ++ e⟩, [])) ∧
    (∀ (caps : AgentCaps) (name : String) (ps : Params),
       name ≠ "search_workspace" → name ≠ "read_file" → name ≠ "create_file" →
       name ≠ "run_terminal" → name ≠ "browser_action" →
       executeAgentTool caps name ps = (⟨false, "不明なツール: " ++ name⟩, [])) := by
  constructor
  · intro caps name ps e he
    unfold executeAgentTool
    rw [he]
  · intro caps name ps h1 h2 h3 h4 h5
    unfold executeAgentTool executeAgentToolBody
    rw [if_neg (by simp [h1]), if_neg (by simp [h2]), if_neg (by simp [h3]),
      if_neg (by simp [h4]), if_neg (by simp [h5])]
    rfl

/-- Witness for C7: a concrete unknown tool name produces the descriptive
failure result. -/
theorem C7_executeAgentTool_never_throws_witness :
    executeAgentTool capsTrivial "bogus_tool" [] = (⟨false, "不明なツール: bogus_tool"⟩, []) := by
  have h := C7_executeAgentTool_never_throws.2 capsTrivial "bogus_tool" []
    (by decide) (by decide) (by decide) (by decide) (by decide)
  simpa using h

/-- C8. `create_file` with a syntactically safe path and string content
performs no filesystem mutation and returns a success result framing the
literal path and the base64-encoded content between the extraction
delimiters; an unsafe (or non-string) path, or non-string content, yields an
explanatory failure. With content `hello` and path `notes/a.md` the result
carries `aGVsbG8=`. -/
theorem C8_create_file_tool :
    (∀ (caps : AgentCaps) (ps : Params) (p content : String),
       getParam ps "path" = some (.str p) →
       getParam ps "content" = some (.str content) →
       isSafeRelativePath p = true →
       executeAgentTool caps "create_file" ps =
         (⟨true, "__DOWNLOAD_FILE__:" ++ p ++ ":" ++ base64String content
             ++ ":__END_DOWNLOAD__"⟩, [])) ∧
    (∀ (caps : AgentCaps) (ps : Params),
       (∀ s, getParam ps "path" = some (.str s) → isSafeRelativePath s = false) →
       executeAgentTool caps "create_file" ps =
         (⟨false, "無効なファイルパスです（相対パスのみ使用可能）"⟩, [])) ∧
    (∀ (caps : AgentCaps) (ps : Params) (p : String),
       getParam ps "path" = some (.str p) →
       isSafeRelativePath p = true →
       (∀ c, getParam ps "content" ≠ some (.str c)) →
       executeAgentTool caps "create_file" ps =
         (⟨false, "無効なファイル内容です（文字列のみ使用可能）"⟩, [])) ∧
    (∀ caps : AgentCaps,
       executeAgentTool caps "create_file"
           [("path", .str "notes/a.md"), ("content", .str "hello")] =
         (⟨true, "__DOWNLOAD_FILE__:notes/a.md:aGVsbG8=:__END_DOWNLOAD__"⟩, [])) := by
  have hmain : ∀ (caps : AgentCaps) (ps : Params) (p content : String),
      getParam ps "path" = some (.str p) →
      getParam ps "content" = some (.str content) →
      isSafeRelativePath p = true →
      executeAgentTool caps "create_file" ps =
        (⟨true, "__DOWNLOAD_FILE__:" ++ p ++ ":" ++ base64String content
            ++ ":__END_DOWNLOAD__"⟩, []) := by
    intro caps ps p content hp hc hsafe
    unfold executeAgentTool executeAgentToolBody
    rw [if_neg (by decide), if_neg (by decide), if_pos (by decide)]
    simp [hp, hc, hsafe, jsStringOf, pure, Except.pure]
  refine ⟨hmain, ?_, ?_, fun caps => ?_⟩
  · intro caps ps hunsafe
    unfold executeAgentTool executeAgentToolBody
    rw [if_neg (by decide), if_neg (by decide), if_pos (by decide)]
    have hok : (match getParam ps "path" with
        | some (.str s) => isSafeRelativePath s
        | _ => false) = false := by
      rcases hg : getParam ps "path" with _ | v
      · rfl
      · rcases v with s | r
        · exact hunsafe s hg
        · rfl
    simp [hok, pure, Except.pure]
  · intro caps ps p hp hsafe hnc
    unfold executeAgentTool executeAgentToolBody
    rw [if_neg (by decide), if_neg (by decide), if_pos (by decide)]
    have hcontent : ∀ v, getParam ps "content" = some v → (∀ c, v ≠ PV.str c) := by
      intro v hv c hvc
      exact hnc c (hvc ▸ hv)
    rcases hg : getParam ps "content" with _ | v
    · simp [hp, hsafe, hg, pure, Except.pure]
    · rcases v with s | r
      · exact absurd rfl (hcontent _ hg s)
      · simp [hp, hsafe, hg, pure, Except.pure]
  · have h := hmain caps [("path", .str "notes/a.md"), ("content", .str "hello")]
      "notes/a.md" "hello" (by decide) (by decide) (by decide)
    rw [h]
    decide

/-- Witness for C8: the concrete `notes/a.md` / `hello` call evaluated through
the theorem itself. -/
theorem C8_create_file_tool_witness :
    executeAgentTool capsTrivial "create_file"
        [("path", .str "notes/a.md"), ("content", .str "hello")] =
      (⟨true, "__DOWNLOAD_FILE__:notes/a.md:aGVsbG8=:__END_DOWNLOAD__"⟩, []) :=
  C8_create_file_tool.2.2.2 capsTrivial

/-- An empty string is never an allowed origin: it is not the default and the
configured entries must match the strict extension-id pattern. -/
theorem isAllowedOrigin_empty_false (cfg : GwConfig) : isAllowedOrigin cfg "" = false := by
  unfold isAllowedOrigin
  simp only [Bool.or_eq_false_iff]
  constructor
  · decide
  · rw [← Bool.not_eq_true, List.contains_iff_exists_mem_beq]
    rintro ⟨a, ha, hbeq⟩
    have hae : a = "" := (eq_of_beq hbeq).symm
    subst hae
    have := (List.mem_filter.mp ha).2
    exact absurd this (by decide)

/-- C6 counterexample: an `OPTIONS` request to the non-health `/chat` route
with no `Origin` header is answered 204 by the CORS preflight short-circuit,
not 403 as the claim requires for every request to a non-health route. -/
theorem C6_counterexample_options_preflight :
    handleRequest cfgDefault gfsDirOnly none otherRoutesStub
        ⟨"OPTIONS", some "/chat", none, none, ""⟩ =
      ⟨⟨204, .empty⟩, false, []⟩ ∧ (204 : Nat) ≠ 403 := by
  constructor
  · rfl
  · decide

/-- C6 (amended). For every non-OPTIONS request with a parseable URL to a
non-health route, an absent (or empty, hence falsy) `Origin` header is
rejected 403 before the body is read, and a present allowed origin with a
missing or wrong `X-Copilot-Bridge-Client` header is rejected 401 before the
body is read; OPTIONS preflights short-circuit to 204 before these checks. -/
theorem C6_auth_rejections (cfg : GwConfig) (gfs : GwFs) (ws : Option (List Char))
    (other : String → RResp) (req : GwRequest) (pn : String)
    (hm : req.method ≠ "OPTIONS")
    (hp : req.pathname = some pn)
    (hh : ¬(pn = "/health" ∧ req.method = "GET")) :
    (originTruthy req.origin = false →
      handleRequest cfg gfs ws other req =
        ⟨⟨403, .errMsg "Origin header is required"⟩, false, []⟩) ∧
    (∀ o, req.origin = some o → isAllowedOrigin cfg o = true →
      hasTrustedClientHeader req.client = false →
      handleRequest cfg gfs ws other req =
        ⟨⟨401, .errMsg "Unauthorized client"⟩, false, []⟩) := by
  have hb : (pn == "/health" && req.method == "GET") = false := by
    cases h1 : (pn == "/health") <;> cases h2 : (req.method == "GET") <;> simp_all
  have hm2 : (req.method == "OPTIONS") = false := by simp [hm]
  constructor
  · intro ho
    have h0 : (originTruthy req.origin && !(isAllowedOrigin cfg (req.origin.getD ""))) = false := by
      simp [ho]
    unfold handleRequest
    simp [h0, hm2, hp, hb, ho]
  · intro o ho hallow hclient
    have hoe : o ≠ "" := by
      intro he
      subst he
      rw [isAllowedOrigin_empty_false cfg] at hallow
      exact absurd hallow (by decide)
    have hga : isAllowedOrigin cfg (req.origin.getD "") = true := by
      rw [ho]
      exact hallow
    have hot : originTruthy req.origin = true := by
      simp [ho, originTruthy, hoe]
    unfold handleRequest
    simp [hga, hm2, hp, hb, hot, hclient]

/-- Witness for C6 (amended): a `POST /chat` without an origin is 403; with
the default allowed origin but no client header it is 401; neither reads the
body. -/
theorem C6_auth_rejections_witness :
    handleRequest cfgDefault gfsDirOnly none otherRoutesStub
        ⟨"POST", some "/chat", none, none, ""⟩ =
      ⟨⟨403, .errMsg "Origin header is required"⟩, false, []⟩ ∧
    handleRequest cfgDefault gfsDirOnly none otherRoutesStub
        ⟨"POST", some "/chat", some defaultAllowedOrigin, none, ""⟩ =
      ⟨⟨401, .errMsg "Unauthorized client"⟩, false, []⟩ := by
  constructor
  · exact (C6_auth_rejections cfgDefault gfsDirOnly none otherRoutesStub
      ⟨"POST", some "/chat", none, none, ""⟩ "/chat" (by decide) rfl (by decide)).1 rfl
  · exact (C6_auth_rejections cfgDefault gfsDirOnly none otherRoutesStub
      ⟨"POST", some "/chat", some defaultAllowedOrigin, none, ""⟩ "/chat"
      (by decide) rfl (by decide)).2 defaultAllowedOrigin rfl (by decide) rfl

/-- C9 counterexample: a `GET /health` request carrying a disallowed `Origin`
header is rejected 403 by the global origin screen, not answered 200 as the
claim requires regardless of the origin carried. -/
theorem C9_counterexample_forbidden_origin :
    handleRequest cfgDefault gfsDirOnly none otherRoutesStub
        ⟨"GET", some "/health", some "https://evil.example", none, ""⟩ =
      ⟨⟨403, .errMsg "Forbidden origin"⟩, false, []⟩ ∧ (403 : Nat) ≠ 200 := by
  constructor
  · rfl
  · decide

/-- C9 (amended). `GET /health` needs no authentication: whenever its
`Origin` header is absent, empty, or allowed, the gateway answers 200 with
the status/version body regardless of the client header and without reading
the body; a present disallowed origin is screened out with 403 like on every
route. -/
theorem C9_health_no_auth (cfg : GwConfig) (gfs : GwFs) (ws : Option (List Char))
    (other : String → RResp) (req : GwRequest)
    (hm : req.method = "GET") (hp : req.pathname = some "/health")
    (ho : req.origin = none ∨ req.origin = some "" ∨
          ∃ o, req.origin = some o ∧ isAllowedOrigin cfg o = true) :
    handleRequest cfg gfs ws other req = ⟨⟨200, .healthB "ok" "0.1.0"⟩, false, []⟩ := by
  have hm2 : (req.method == "OPTIONS") = false := by simp [hm]
  have h0 : (originTruthy req.origin && !(isAllowedOrigin cfg (req.origin.getD ""))) = false := by
    rcases ho with h | h | ⟨o, h, hallow⟩
    · simp [h, originTruthy]
    · simp [h, originTruthy]
    · simp [h, hallow]
  unfold handleRequest
  simp [h0, hm2, hp, hm]

/-- Witness for C9 (amended): `GET /health` with no origin and no client
header is 200 with the status/version body. -/
theorem C9_health_no_auth_witness :
    handleRequest cfgDefault gfsDirOnly none otherRoutesStub
        ⟨"GET", some "/health", none, none, ""⟩ =
      ⟨⟨200, .healthB "ok" "0.1.0"⟩, false, []⟩ :=
  C9_health_no_auth cfgDefault gfsDirOnly none otherRoutesStub
    ⟨"GET", some "/health", none, none, ""⟩ rfl rfl (Or.inl rfl)

/-- C10. On the `/file` route, every action whose validated path resolves to
an existing target that is not a regular file is answered 400 with
`Target path is not a file`, and no write, append, delete, or directory
creation is performed. -/
theorem C10_file_non_regular_target (gfs : GwFs) (root : List Char) (body : String)
    (jv : JVal) (v : FileOpRequest) (t : Nat)
    (hbody : jsTrim body.toList ≠ [])
    (hparse : parseJson body.toList = some jv)
    (hvalid : validateFileOperationRequest jv = .ok v)
    (hsafe : isSafeRelativePath v.path = true)
    (hwithin : gatewayIsWithinWorkspace root
        (joinPathStr root (splitSep '/' (slashify v.path.toList))) = true)
    (hstat : gfs.stat (joinPathStr root (splitSep '/' (slashify v.path.toList))) = some t)
    (hreg : isRegularFile t = false) :
    handleFileOperationM gfs (some root) body =
      (⟨400, .errMsg "Target path is not a file"⟩, []) := by
  unfold handleFileOperationM
  have hb : (jsTrim body.toList == []) = false := by simpa using hbody
  rw [hb]
  simp only [Bool.false_eq_true, if_false, hparse, hvalid, hsafe, hwithin, hstat, hreg]
  cases hact : v.action <;> simp [hstat, hreg]

/-- Witness for C10: deleting the directory `sub` inside `/ws` is rejected
with 400 and no filesystem mutation. -/
theorem C10_file_non_regular_target_witness :
    handleFileOperationM gfsDirOnly (some "/ws".toList)
        "\x7b\"action\":\"delete\",\"path\":\"sub\"\x7d" =
      (⟨400, .errMsg "Target path is not a file"⟩, []) :=
  C10_file_non_regular_target gfsDirOnly "/ws".toList _
    (JVal.jobj [("action".toList, .jstr "delete".toList), ("path".toList, .jstr "sub".toList)])
    ⟨.delete, "sub", none⟩ 2 (by decide) rfl rfl (by decide) (by decide) rfl (by decide)

/-- The separator never occurs inside a field of the split. -/
theorem splitSep_sep_not_mem (sep : Char) (l : List Char) :
    ∀ s ∈ splitSep sep l, sep ∉ s := by
  induction l with
  | nil =>
    intro s hs
    simp only [splitSep, List.mem_singleton] at hs
    subst hs
    simp
  | cons c cs ih =>
    intro s hs
    simp only [splitSep] at hs
    by_cases hc : c == sep
    · rw [if_pos hc] at hs
      rcases List.mem_cons.mp hs with h | h
      · subst h
        simp
      · exact ih s h
    · rw [if_neg hc] at hs
      rcases hr : splitSep sep cs with _ | ⟨h0, t⟩
      · exact absurd hr (splitSep_ne_nil sep cs)
      · rw [hr] at hs
        rcases List.mem_cons.mp hs with h | h
        · subst h
          intro hmem
          rcases List.mem_cons.mp hmem with h | h
          · exact hc (by simp [h])
          · have : h0 ∈ splitSep sep cs := by
              rw [hr]
              exact List.mem_cons_self h0 t
            exact ih h0 this h
        · have : s ∈ splitSep sep cs := by
            rw [hr]
            exact List.mem_cons_of_mem h0 h
          exact ih s this

/-- Splitting a separator-free string yields a single field. -/
theorem splitSep_free {sep : Char} {b : List Char} (hb : sep ∉ b) :
    splitSep sep b = [b] := by
  induction b with
  | nil => rfl
  | cons c cs ih =>
    have hc : ¬ (c == sep) = true := by
      simp only [beq_iff_eq]
      intro h
      exact hb (h ▸ List.mem_cons_self c cs)
    have ihr := ih fun h => hb (List.mem_cons_of_mem c h)
    simp only [splitSep, if_neg hc, ihr]

/-- `joinSep` on two or more fields. -/
theorem joinSep_cons_cons (sep : Char) (s s2 : List Char) (rest : List (List Char)) :
    joinSep sep (s :: s2 :: rest) = s ++ sep :: joinSep sep (s2 :: rest) := rfl

/-- Splitting after prepending a separator-free run extends the first
field. -/
theorem splitSep_append_head {sep : Char} {a : List Char} (ha : sep ∉ a) (v : List Char)
    (h : List Char) (wsplit : List (List Char)) (hv : splitSep sep v = h :: wsplit) :
    splitSep sep (a ++ v) = (a ++ h) :: wsplit := by
  induction a with
  | nil => simpa using hv
  | cons c a2 ih =>
    have hc : ¬ (c == sep) = true := by
      simp only [beq_iff_eq]
      intro h2
      exact ha (h2 ▸ List.mem_cons_self c a2)
    have ihr := ih fun h2 => ha (List.mem_cons_of_mem c h2)
    show splitSep sep (c :: (a2 ++ v)) = (c :: (a2 ++ h)) :: wsplit
    simp only [splitSep, if_neg hc]
    rw [ihr]

/-- Splitting inverts joining for non-empty separator-free field lists. -/
theorem splitSep_joinSep_free {sep : Char} :
    ∀ {l : List (List Char)}, l ≠ [] → (∀ s ∈ l, sep ∉ s) →
      splitSep sep (joinSep sep l) = l := by
  intro l
  induction l with
  | nil => intro h; exact absurd rfl h
  | cons s rest ih =>
    intro _ hfree
    rcases rest with _ | ⟨s2, rest2⟩
    · show splitSep sep s = [s]
      exact splitSep_free (hfree s (List.mem_cons_self s []))
    · rw [joinSep_cons_cons]
      have hrec : splitSep sep (joinSep sep (s2 :: rest2)) = s2 :: rest2 :=
        ih (by simp) fun x hx => hfree x (List.mem_cons_of_mem s hx)
      have hv : splitSep sep (sep :: joinSep sep (s2 :: rest2)) = [] :: s2 :: rest2 := by
        rw [splitSep_cons_sep, hrec]
      have := splitSep_append_head (hfree s (List.mem_cons_self s _))
        (sep :: joinSep sep (s2 :: rest2)) [] (s2 :: rest2) hv
      simpa using this

/-- `resolveDotsAux` is plain accumulation on a dot-free segment list. -/
theorem resolveDotsAux_no_dots :
    ∀ {l : List (List Char)},
      (∀ s ∈ l, s ≠ [] ∧ s ≠ ['.'] ∧ s ≠ ['.', '.']) →
      ∀ acc, resolveDotsAux acc l = acc ++ l := by
  intro l
  induction l with
  | nil => intro _ acc; simp [resolveDotsAux]
  | cons s rest ih =>
    intro hl acc
    obtain ⟨h1, h2, h3⟩ := hl s (List.mem_cons_self s rest)
    have hc1 : (s == [] || s == ['.']) = false := by
      simp [h1, h2]
    have hc2 : (s == ['.', '.']) = false := by
      simp [h3]
    simp only [resolveDotsAux, hc1, hc2, Bool.false_eq_true, if_false]
    rw [ih (fun x hx => hl x (List.mem_cons_of_mem s hx)) (acc ++ [s])]
    simp

/-- Resolution of a separator-free segment list yields plain segments. -/
theorem resolveDots_clean {l : List (List Char)} (hl : ∀ s ∈ l, '/' ∉ s) :
    CleanSegs (resolveDots l) := by
  suffices h : ∀ (l2 : List (List Char)), (∀ s ∈ l2, '/' ∉ s) →
      ∀ acc, CleanSegs acc → CleanSegs (resolveDotsAux acc l2) by
    exact h l hl [] (by intro s hs; simp at hs)
  intro l2
  induction l2 with
  | nil => intro _ acc hacc; exact hacc
  | cons s rest ih =>
    intro hfree acc hacc
    have hrest : ∀ x ∈ rest, '/' ∉ x := fun x hx => hfree x (List.mem_cons_of_mem s hx)
    by_cases hc1 : (s == [] || s == ['.']) = true
    · simp only [resolveDotsAux, hc1, if_true]
      exact ih hrest acc hacc
    · by_cases hc2 : (s == ['.', '.']) = true
      · simp only [resolveDotsAux, hc1, hc2, if_true, Bool.false_eq_true, if_false]
        refine ih hrest acc.dropLast fun x hx => hacc x ?_
        exact List.Sublist.subset (List.dropLast_sublist acc) hx
      · simp only [resolveDotsAux, hc1, hc2, Bool.false_eq_true, if_false]
        refine ih hrest (acc ++ [s]) fun x hx => ?_
        rcases List.mem_append.mp hx with hx | hx
        · exact hacc x hx
        · have hxs : x = s := by simpa using hx
          subst hxs
          simp only [Bool.or_eq_true, beq_iff_eq, not_or] at hc1
          refine ⟨hc1.1, hfree x (List.mem_cons_self x rest), hc1.2, by simpa using hc2⟩

/-- A leading empty field is dropped by resolution. -/
theorem resolveDotsAux_cons_empty (acc : List (List Char)) (l : List (List Char)) :
    resolveDotsAux acc ([] :: l) = resolveDotsAux acc l := by
  rw [resolveDotsAux]
  simp

/-- Resolving a rendered plain path reads its segments back. -/
theorem pathResolveSegs_render {l : List (List Char)} (hl : CleanSegs l) :
    pathResolveSegs (renderPath l) = l := by
  rcases l with _ | ⟨s, rest⟩
  · decide
  · unfold pathResolveSegs renderPath
    have hfree : ∀ x ∈ s :: rest, '/' ∉ x := fun x hx => (hl x hx).2.1
    rw [splitSep_cons_sep, splitSep_joinSep_free (by simp) hfree]
    show resolveDots ([] :: s :: rest) = s :: rest
    unfold resolveDots
    rw [resolveDotsAux_cons_empty]
    have := resolveDotsAux_no_dots
      (l := s :: rest) (fun x hx => ⟨(hl x hx).1, (hl x hx).2.2.1, (hl x hx).2.2.2⟩) []
    simpa using this

/-- Prefix comparison across one separator: two separator-free runs followed
by the separator line up exactly when the runs are equal and the tails are in
the prefix relation. -/
theorem sep_run_prefix_iff {sep : Char} :
    ∀ {a b : List Char} (u v : List Char), sep ∉ a → sep ∉ b →
      ((a ++ sep :: u) <+: (b ++ sep :: v) ↔ a = b ∧ u <+: v) := by
  intro a
  induction a with
  | nil =>
    intro b u v _ hb
    rcases b with _ | ⟨d, b2⟩
    · simp only [List.nil_append, List.cons_prefix_cons]
    · simp only [List.nil_append, List.cons_append, List.cons_prefix_cons]
      constructor
      · rintro ⟨hsd, _⟩
        exact absurd (hsd ▸ List.mem_cons_self d b2) hb
      · rintro ⟨h, _⟩
        exact absurd h (by simp)
  | cons c a2 ih =>
    intro b u v ha hb
    rcases b with _ | ⟨d, b2⟩
    · simp only [List.cons_append, List.nil_append, List.cons_prefix_cons]
      constructor
      · rintro ⟨hcs, _⟩
        exact absurd (hcs ▸ List.mem_cons_self c a2) ha
      · rintro ⟨h, _⟩
        exact absurd h (by simp)
    · simp only [List.cons_append, List.cons_prefix_cons]
      rw [ih u v (fun h => ha (List.mem_cons_of_mem c h))
        (fun h => hb (List.mem_cons_of_mem d h))]
      constructor
      · rintro ⟨h1, h2, h3⟩
        exact ⟨by rw [h1, h2], h3⟩
      · rintro ⟨h1, h2⟩
        have h1' := List.cons.injEq c a2 d b2 ▸ h1
        exact ⟨(List.cons.injEq c a2 d b2 ▸ h1).1, (List.cons.injEq c a2 d b2 ▸ h1).2, h2⟩

/-- A join of non-empty separator-free fields is non-empty. -/
theorem joinSep_ne_nil {sep : Char} {l : List (List Char)} (h : l ≠ [])
    (h2 : ∀ s ∈ l, s ≠ []) : joinSep sep l ≠ [] := by
  rcases l with _ | ⟨s, rest⟩
  · exact absurd rfl h
  · rcases rest with _ | ⟨s2, rest2⟩
    · exact h2 s (List.mem_cons_self s [])
    · rw [joinSep_cons_cons]
      intro hx
      rcases List.append_eq_nil.mp hx with ⟨_, h2x⟩
      exact absurd h2x (by simp)

/-- The strict-descendant string test on joins characterises the strict
prefix relation on the field lists. -/
theorem joinSep_strict_prefix_iff {sep : Char} :
    ∀ {a : List (List Char)} {b : List (List Char)}, a ≠ [] →
      (∀ s ∈ a, s ≠ [] ∧ sep ∉ s) → (∀ s ∈ b, s ≠ [] ∧ sep ∉ s) →
      ((joinSep sep a ++ [sep]) <+: joinSep sep b ↔ a <+: b ∧ a ≠ b) := by
  intro a
  induction a with
  | nil => intro _ h; exact absurd rfl h
  | cons s a2 ih =>
    intro b _ ha hb
    rcases a2 with _ | ⟨s2, arest⟩
    · -- a = [s]
      rcases b with _ | ⟨t, b2⟩
      · constructor
        · intro h
          have := h.length_le
          simp [joinSep] at this
        · rintro ⟨h, _⟩
          have := h.length_le
          simp at this
      · rcases b2 with _ | ⟨t2, brest⟩
        · -- b = [t]
          constructor
          · intro h
            have hmem : sep ∈ t := h.subset (by simp)
            exact absurd hmem (hb t (List.mem_cons_self t [])).2
          · rintro ⟨h, hne⟩
            obtain ⟨hst, _⟩ := List.cons_prefix_cons.mp h
            exact absurd (by rw [hst]) hne
        · -- b = t :: t2 :: brest
          rw [joinSep_cons_cons]
          have hs : (joinSep sep [s] ++ [sep]) = s ++ sep :: [] := by
            simp [joinSep]
          rw [hs, sep_run_prefix_iff [] (joinSep sep (t2 :: brest))
            (ha s (List.mem_cons_self s [])).2 (hb t (List.mem_cons_self t _)).2]
          constructor
          · rintro ⟨hst, _⟩
            refine ⟨hst ▸ ?_, ?_⟩
            · exact List.cons_prefix_cons.mpr ⟨rfl, by simp⟩
            · intro hx
              have := congrArg List.length hx
              simp at this
          · rintro ⟨h, _⟩
            exact ⟨(List.cons_prefix_cons.mp h).1, List.nil_prefix⟩
    · -- a = s :: s2 :: arest
      rcases b with _ | ⟨t, b2⟩
      · constructor
        · intro h
          have := h.length_le
          simp [joinSep] at this
        · rintro ⟨h, _⟩
          have := h.length_le
          simp at this
      · rcases b2 with _ | ⟨t2, brest⟩
        · -- b = [t]: the left side contains the separator, t does not
          constructor
          · intro h
            rw [joinSep_cons_cons] at h
            have hmem : sep ∈ t := by
              refine h.subset ?_
              exact List.mem_append_left _ (by simp)
            exact absurd hmem (hb t (List.mem_cons_self t [])).2
          · rintro ⟨h, hne⟩
            rcases List.cons_prefix_cons.mp h with ⟨hst, h2⟩
            have := h2.length_le
            simp at this
        · -- b = t :: t2 :: brest
          rw [joinSep_cons_cons, joinSep_cons_cons]
          have hassoc : (s ++ sep :: joinSep sep (s2 :: arest)) ++ [sep]
              = s ++ sep :: (joinSep sep (s2 :: arest) ++ [sep]) := by
            simp
          rw [hassoc, sep_run_prefix_iff (joinSep sep (s2 :: arest) ++ [sep])
            (joinSep sep (t2 :: brest)) (ha s (List.mem_cons_self s _)).2
            (hb t (List.mem_cons_self t _)).2]
          rw [ih (by simp) (fun x hx => ha x (List.mem_cons_of_mem s hx))
            (fun x hx => hb x (List.mem_cons_of_mem t hx))]
          constructor
          · rintro ⟨h1, h2, h3⟩
            refine ⟨List.cons_prefix_cons.mpr ⟨h1, h2⟩, ?_⟩
            intro hx
            have := (List.cons.injEq s (s2 :: arest) t (t2 :: brest) ▸ hx).2
            exact h3 this
          · rintro ⟨h1, h2⟩
            obtain ⟨hst, hpre⟩ := List.cons_prefix_cons.mp h1
            refine ⟨hst, hpre, ?_⟩
            intro hx
            exact h2 (by rw [hst, hx])

/-- The source's comparison (string equality, or string prefix after
appending one separator) on rendered plain paths is exactly the segment
prefix relation, provided the root path is not the filesystem root. -/
theorem renderPath_cmp_iff {a b : List (List Char)} (hane : a ≠ [])
    (ha : ∀ s ∈ a, s ≠ [] ∧ '/' ∉ s) (hb : ∀ s ∈ b, s ≠ [] ∧ '/' ∉ s) :
    (renderPath b == renderPath a || (renderPath a ++ ['/']).isPrefixOf (renderPath b)) = true
      ↔ a <+: b := by
  rw [Bool.or_eq_true, beq_iff_eq, List.isPrefixOf_iff_prefix]
  unfold renderPath
  constructor
  · rintro (h | h)
    · have hj : joinSep '/' b = joinSep '/' a := by
        simpa using h
      have hbne : b ≠ [] := by
        intro hx
        subst hx
        exact joinSep_ne_nil hane (fun s hs => (ha s hs).1) hj.symm
      have hba : b = a := by
        rw [← splitSep_joinSep_free hbne (fun s hs => (hb s hs).2), hj,
          splitSep_joinSep_free hane (fun s hs => (ha s hs).2)]
      rw [hba]
    · have h2 : (joinSep '/' a ++ ['/']) <+: joinSep '/' b := by
        rw [List.cons_append] at h
        exact (List.cons_prefix_cons.mp h).2
      exact ((joinSep_strict_prefix_iff hane ha hb).mp h2).1
  · intro h
    by_cases heq : a = b
    · left
      rw [heq]
    · right
      rw [List.cons_append]
      exact List.cons_prefix_cons.mpr
        ⟨rfl, (joinSep_strict_prefix_iff hane ha hb).mpr ⟨h, heq⟩⟩

/-- Lower-casing fixes any character outside the case table. -/
theorem jsLowerChar_eq_iff {d : Char}
    (hd : ∀ pr ∈ upperLowerPairs, pr.1 ≠ d ∧ pr.2 ≠ d) (c : Char) :
    jsLowerChar c = d ↔ c = d := by
  unfold jsLowerChar
  rcases hf : upperLowerPairs.find? fun pr => pr.1 == c with _ | pr
  · rw [hf]
    simp
  · have hmem : pr ∈ upperLowerPairs := List.mem_of_find?_eq_some hf
    have hpc : pr.1 = c := by
      have := List.find?_some hf
      simpa using this
    rw [hf]
    show pr.2 = d ↔ c = d
    constructor
    · intro hx
      exact absurd hx (hd pr hmem).2
    · intro hx
      exact absurd (hpc.trans hx) (hd pr hmem).1

/-- Lower-casing fixes the separator. -/
theorem jsLowerChar_eq_slash_iff (c : Char) : jsLowerChar c = '/' ↔ c = '/' :=
  jsLowerChar_eq_iff (by decide) c

/-- Lower-casing fixes the dot. -/
theorem jsLowerChar_eq_dot_iff (c : Char) : jsLowerChar c = '.' ↔ c = '.' :=
  jsLowerChar_eq_iff (by decide) c

/-- Mapping a character function through a join maps each field (when the
function fixes the separator). -/
theorem map_joinSep {f : Char → Char} {sep : Char} (hf : f sep = sep) :
    ∀ l : List (List Char), (joinSep sep l).map f = joinSep sep (l.map (List.map f)) := by
  intro l
  induction l with
  | nil => rfl
  | cons s rest ih =>
    rcases rest with _ | ⟨s2, rest2⟩
    · rfl
    · rw [joinSep_cons_cons, List.map_cons, List.map_cons] at *
      rw [List.map_append]
      rw [show joinSep sep (List.map f s :: List.map f s2 :: List.map (List.map f) rest2)
        = List.map f s ++ sep :: joinSep sep (List.map f s2 :: List.map (List.map f) rest2)
        from rfl]
      rw [← ih]
      simp [hf]

/-- Lower-casing a rendered path renders the lower-cased segments. -/
theorem lowerL_renderPath (l : List (List Char)) :
    lowerL (renderPath l) = renderPath (l.map lowerL) := by
  unfold lowerL renderPath
  rw [List.map_cons, map_joinSep (by decide) l]
  rfl

/-- Lower-casing preserves plainness of a segment. -/
theorem CleanSeg_lower {s : List Char} (hs : CleanSeg s) : CleanSeg (lowerL s) := by
  obtain ⟨h1, h2, h3, h4⟩ := hs
  refine ⟨by simpa [lowerL] using h1, ?_, ?_, ?_⟩
  · intro hmem
    rcases List.mem_map.mp hmem with ⟨c, hc, hlc⟩
    exact h2 (((jsLowerChar_eq_slash_iff c).mp hlc) ▸ hc)
  · intro hx
    rcases s with _ | ⟨c, _ | ⟨c2, r⟩⟩
    · exact h1 rfl
    · have : jsLowerChar c = '.' := by simpa [lowerL] using hx
      exact h3 (by rw [(jsLowerChar_eq_dot_iff c).mp this])
    · have := congrArg List.length hx
      simp [lowerL] at this
  · intro hx
    rcases s with _ | ⟨c, _ | ⟨c2, _ | ⟨c3, r⟩⟩⟩
    · exact h1 rfl
    · have := congrArg List.length hx
      simp [lowerL] at this
    · have hp : jsLowerChar c = '.' ∧ jsLowerChar c2 = '.' := by
        simpa [lowerL] using hx
      exact h4 (by rw [(jsLowerChar_eq_dot_iff c).mp hp.1, (jsLowerChar_eq_dot_iff c2).mp hp.2])
    · have := congrArg List.length hx
      simp [lowerL] at this

/-- Lower-casing preserves plainness of a path. -/
theorem CleanSegs_lower {l : List (List Char)} (hl : CleanSegs l) :
    CleanSegs (l.map lowerL) := by
  intro s hs
  rcases List.mem_map.mp hs with ⟨x, hx, hlx⟩
  exact hlx ▸ CleanSeg_lower (hl x hx)

/-- The segments of any string resolution are plain. -/
theorem pathResolveSegs_clean (p : List Char) : CleanSegs (pathResolveSegs p) :=
  resolveDots_clean (splitSep_sep_not_mem '/' p)

/-- The comparison string of the shared `isWithinWorkspace` renders exactly
the segments `comparisonSegs` reads back, and those segments are plain. -/
theorem normalizeForComparison_render (win32 : Bool) (fs : FsModel) (p : List Char) :
    normalizeForComparison win32 (resolveExistingAncestorPath fs (pathResolve p)) =
      renderPath (comparisonSegs fs win32 p) ∧
    CleanSegs (comparisonSegs fs win32 p) := by
  unfold comparisonSegs normalizeForComparison pathResolve
  set m := pathResolveSegs (resolveExistingAncestorPath fs
    (renderPath (pathResolveSegs p))) with hm
  have hmc : CleanSegs m := pathResolveSegs_clean _
  cases win32 with
  | false =>
    simp only [Bool.false_eq_true, if_false]
    rw [pathResolveSegs_render hmc]
    exact ⟨rfl, hmc⟩
  | true =>
    simp only [if_true]
    rw [lowerL_renderPath m, pathResolveSegs_render (CleanSegs_lower hmc)]
    exact ⟨rfl, CleanSegs_lower hmc⟩

/-- The comparison string of the gateway's private `isWithinWorkspace`
renders exactly the segments `gatewayComparisonSegs` reads back, and those
segments are plain. -/
theorem gatewayComparison_render (p : List Char) :
    lowerL (pathResolve p) = renderPath (gatewayComparisonSegs p) ∧
    CleanSegs (gatewayComparisonSegs p) := by
  unfold gatewayComparisonSegs pathResolve
  have hmc : CleanSegs (pathResolveSegs p) := pathResolveSegs_clean p
  rw [lowerL_renderPath, pathResolveSegs_render (CleanSegs_lower hmc)]
  exact ⟨rfl, CleanSegs_lower hmc⟩

/-- C1 (amended). The shared `isWithinWorkspace` of `path-safety.ts`
satisfies the claimed contract: after resolving each side to its nearest
existing ancestor's canonical path (following symlinks) and case-folding
exactly on win32, it returns true iff the resolved candidate equals the
resolved root or is a strict descendant of it — componentwise, the resolved
root's segments are a prefix of the resolved candidate's (for a root that
does not resolve to the filesystem root itself). The gateway's private copy
used by the `/file` route satisfies only the weaker statement in which both
sides are case-folded on every platform and no ancestor walk or symlink
resolution is performed. -/
theorem C1_isWithinWorkspace_contract :
    (∀ (fs : FsModel) (win32 : Bool) (root cand : List Char),
       comparisonSegs fs win32 root ≠ [] →
       (isWithinWorkspace fs win32 root cand = true ↔
        comparisonSegs fs win32 root <+: comparisonSegs fs win32 cand)) ∧
    (∀ root cand : List Char,
       gatewayComparisonSegs root ≠ [] →
       (gatewayIsWithinWorkspace root cand = true ↔
        gatewayComparisonSegs root <+: gatewayComparisonSegs cand)) := by
  constructor
  · intro fs win32 root cand hne
    obtain ⟨hwr, hcw⟩ := normalizeForComparison_render win32 fs root
    obtain ⟨htr, hct⟩ := normalizeForComparison_render win32 fs cand
    unfold isWithinWorkspace
    rw [hwr, htr]
    exact renderPath_cmp_iff hne (fun s hs => ⟨(hcw s hs).1, (hcw s hs).2.1⟩)
      (fun s hs => ⟨(hct s hs).1, (hct s hs).2.1⟩)
  · intro root cand hne
    obtain ⟨hwr, hcw⟩ := gatewayComparison_render root
    obtain ⟨htr, hct⟩ := gatewayComparison_render cand
    unfold gatewayIsWithinWorkspace
    rw [hwr, htr]
    exact renderPath_cmp_iff hne (fun s hs => ⟨(hcw s hs).1, (hcw s hs).2.1⟩)
      (fun s hs => ⟨(hct s hs).1, (hct s hs).2.1⟩)

/-- Witness for C1 (amended): concrete containment decided through both
characterisations. -/
theorem C1_isWithinWorkspace_contract_witness :
    isWithinWorkspace fsIdentity false "/ws".toList "/ws/x".toList = true ∧
    gatewayIsWithinWorkspace "/a".toList "/a/b".toList = true := by
  constructor
  · exact (C1_isWithinWorkspace_contract.1 fsIdentity false "/ws".toList "/ws/x".toList
      (by decide)).mpr (by decide)
  · exact (C1_isWithinWorkspace_contract.2 "/a".toList "/a/b".toList
      (by decide)).mpr (by decide)

/-- C1 counterexample: on a case-sensitive platform with a symlink-free
filesystem, the candidate `/ws/x` is not the root `/Ws` nor a descendant of
it under the claimed (case-sensitive) comparison — the shared implementation
refuses it — yet the gateway's private copy, which the claim also covers,
accepts it because it case-folds unconditionally. -/
theorem C1_counterexample_gateway_case_fold :
    gatewayIsWithinWorkspace "/Ws".toList "/ws/x".toList = true ∧
    isWithinWorkspace fsIdentity false "/Ws".toList "/ws/x".toList = false ∧
    ¬ (comparisonSegs fsIdentity false "/Ws".toList <+:
        comparisonSegs fsIdentity false "/ws/x".toList) := by
  refine ⟨by decide, by decide, by decide⟩

/-- The ancestor walk ignores trailing components none of whose extensions of
the base exist. -/
theorem resolveAncestorRev_append (fs : FsModel) (baseRev : List (List Char)) :
    ∀ extRev : List (List Char),
      (∀ q, q ≠ [] → q <+: extRev.reverse →
        fs.pathExists (renderPath (baseRev.reverse ++ q)) = false) →
      resolveAncestorRev fs (extRev ++ baseRev) = resolveAncestorRev fs baseRev := by
  intro extRev
  induction extRev with
  | nil => intro _; rfl
  | cons s r ih =>
    intro hno
    have hrev : (s :: (r ++ baseRev)).reverse = baseRev.reverse ++ (s :: r).reverse := by
      simp
    have hfalse : fs.pathExists (renderPath ((s :: (r ++ baseRev)).reverse)) = false := by
      rw [hrev]
      refine hno (s :: r).reverse (by simp) ?_
      exact List.prefix_refl _
    show resolveAncestorRev fs (s :: (r ++ baseRev)) = resolveAncestorRev fs baseRev
    rw [resolveAncestorRev, hfalse]
    simp only [Bool.false_eq_true, if_false]
    refine ih fun q hq hpre => hno q hq ?_
    refine hpre.trans ?_
    rw [show (s :: r).reverse = r.reverse ++ [s] from by simp]
    exact List.prefix_append _ _

/-- Joining distributes over appending non-empty field lists. -/
theorem joinSep_append {sep : Char} :
    ∀ {a b : List (List Char)}, a ≠ [] → b ≠ [] →
      joinSep sep (a ++ b) = joinSep sep a ++ sep :: joinSep sep b := by
  intro a
  induction a with
  | nil => intro b h; exact absurd rfl h
  | cons s a2 ih =>
    intro b _ hb
    rcases a2 with _ | ⟨s2, arest⟩
    · rcases b with _ | ⟨t, b2⟩
      · exact absurd rfl hb
      · rw [show ([s] ++ t :: b2) = s :: t :: b2 from rfl, joinSep_cons_cons]
        rfl
    · rw [show ((s :: s2 :: arest) ++ b) = s :: ((s2 :: arest) ++ b) from rfl]
      have h2 : (s2 :: arest) ++ b ≠ [] := by simp
      rcases hx : (s2 :: arest) ++ b with _ | ⟨y, ys⟩
      · exact absurd hx h2
      · rw [← hx, show joinSep sep (s :: ((s2 :: arest) ++ b))
          = s ++ sep :: joinSep sep ((s2 :: arest) ++ b) from by rw [hx]; rfl]
        rw [ih (by simp) hb, joinSep_cons_cons]
        simp

/-- Joining a relative segment list onto a rendered root renders the
concatenation (for a root below the filesystem root). -/
theorem joinPathStr_render {a b : List (List Char)} (ha : a ≠ []) (hb : b ≠ []) :
    joinPathStr (renderPath a) b = renderPath (a ++ b) := by
  rcases b with _ | ⟨s, rest⟩
  · exact absurd rfl hb
  · show renderPath a ++ '/' :: joinSep '/' (s :: rest) = renderPath (a ++ s :: rest)
    unfold renderPath
    rw [joinSep_append ha (by simp)]
    simp

/-- Left-whitespace decomposition of a string. -/
theorem ltrim_decomp (l : List Char) :
    ∃ w, (∀ c ∈ w, isJsWhitespace c = true) ∧ l = w ++ ltrim l := by
  induction l with
  | nil => exact ⟨[], by simp, rfl⟩
  | cons c cs ih =>
    by_cases hc : isJsWhitespace c
    · obtain ⟨w, hw, hlw⟩ := ih
      refine ⟨c :: w, ?_, ?_⟩
      · intro d hd
        rcases List.mem_cons.mp hd with h | h
        · exact h ▸ hc
        · exact hw d h
      · show c :: cs = (c :: w) ++ ltrim (c :: cs)
        rw [show ltrim (c :: cs) = ltrim cs from by simp [ltrim, hc]]
        rw [List.cons_append, ← hlw]
    · refine ⟨[], by simp, ?_⟩
      simp [ltrim, hc]

/-- Right-whitespace decomposition of a string. -/
theorem rtrim_decomp (l : List Char) :
    ∃ w, (∀ c ∈ w, isJsWhitespace c = true) ∧ l = rtrim l ++ w := by
  obtain ⟨w, hw, hlw⟩ := ltrim_decomp l.reverse
  refine ⟨w.reverse, fun c hc => hw c (List.mem_reverse.mp hc), ?_⟩
  unfold rtrim
  have := congrArg List.reverse hlw
  simpa using this

/-- Splitting before an appended separator-free run extends the last
field. -/
theorem splitSep_append_last {sep : Char} {b : List Char} (hb : sep ∉ b) :
    ∀ v : List Char, ∃ i l0, splitSep sep v = i ++ [l0] ∧
      splitSep sep (v ++ b) = i ++ [l0 ++ b] := by
  intro v
  induction v with
  | nil =>
    refine ⟨[], [], rfl, ?_⟩
    rw [List.nil_append]
    exact splitSep_free hb
  | cons c v2 ih =>
    obtain ⟨i, l0, h1, h2⟩ := ih
    by_cases hc : (c == sep) = true
    · refine ⟨[] :: i, l0, ?_, ?_⟩
      · rw [show splitSep sep (c :: v2) = [] :: splitSep sep v2 from by
          simp [splitSep, hc], h1]
        rfl
      · rw [show (c :: v2) ++ b = c :: (v2 ++ b) from rfl]
        rw [show splitSep sep (c :: (v2 ++ b)) = [] :: splitSep sep (v2 ++ b) from by
          simp [splitSep, hc], h2]
        rfl
    · rcases i with _ | ⟨h0, i2⟩
      · have h1' : splitSep sep v2 = [l0] := by simpa using h1
        have h2' : splitSep sep (v2 ++ b) = [l0 ++ b] := by simpa using h2
        refine ⟨[], c :: l0, ?_, ?_⟩
        · simp [splitSep, hc, h1']
        · rw [show (c :: v2) ++ b = c :: (v2 ++ b) from rfl]
          simp [splitSep, hc, h2']
      · have h1' : splitSep sep v2 = h0 :: (i2 ++ [l0]) := by simpa using h1
        have h2' : splitSep sep (v2 ++ b) = h0 :: (i2 ++ [l0 ++ b]) := by simpa using h2
        refine ⟨(c :: h0) :: i2, l0, ?_, ?_⟩
        · simp [splitSep, hc, h1']
        · rw [show (c :: v2) ++ b = c :: (v2 ++ b) from rfl]
          simp [splitSep, hc, h2']

/-- Whitespace padding cannot turn a non-dot segment into a dot segment. -/
theorem padded_ne_dots {w1 mid w2 : List Char}
    (hw1 : ∀ c ∈ w1, isJsWhitespace c = true)
    (hw2 : ∀ c ∈ w2, isJsWhitespace c = true)
    (hm : mid ≠ [] ∧ mid ≠ ['.'] ∧ mid ≠ ['.', '.']) :
    w1 ++ (mid ++ w2) ≠ ['.'] ∧ w1 ++ (mid ++ w2) ≠ ['.', '.'] := by
  have hgen : ∀ target : List Char, (∀ c ∈ target, c = '.') → mid ≠ target →
      w1 ++ (mid ++ w2) ≠ target := by
    intro target htarget hne hx
    have hw1e : w1 = [] := by
      cases w1 with
      | nil => rfl
      | cons c w =>
        exfalso
        have hcm : c ∈ (c :: w) ++ (mid ++ w2) := by simp
        have hcd : c = '.' := htarget c (hx ▸ hcm)
        have hws := hw1 c (List.mem_cons_self c w)
        rw [hcd] at hws
        exact absurd hws (by decide)
    subst hw1e
    have hw2e : w2 = [] := by
      cases w2 with
      | nil => rfl
      | cons c w =>
        exfalso
        have hcm : c ∈ ([] : List Char) ++ (mid ++ c :: w) := by simp
        have hcd : c = '.' := htarget c (hx ▸ hcm)
        have hws := hw2 c (List.mem_cons_self c w)
        rw [hcd] at hws
        exact absurd hws (by decide)
    subst hw2e
    simp only [List.nil_append, List.append_nil] at hx
    exact hne hx
  exact ⟨hgen ['.'] (by decide) hm.2.1, hgen ['.', '.'] (by decide) hm.2.2⟩

/-- A list with a member satisfying the filter is non-empty after
filtering. -/
theorem filter_ne_nil_of_mem {α : Type} {p : α → Bool} {l : List α} {x : α}
    (hx : x ∈ l) (hp : p x = true) : l.filter p ≠ [] := by
  intro h
  have hmem : x ∈ l.filter p := List.mem_filter.mpr ⟨hx, hp⟩
  rw [h] at hmem
  simp at hmem

/-- The normalised segments of a syntactically safe relative path are plain
and non-empty: the untrimmed split used by `toWorkspaceFileUri` only pads the
outermost segments of the trimmed split the safety check inspected with
whitespace, which cannot create a `.` or `..` segment. -/
theorem safeSegs_clean {raw : List Char} (hs : isSafeRelativePathL raw = true) :
    CleanSegs (safeSegs raw) ∧ safeSegs raw ≠ [] := by
  simp [isSafeRelativePathL] at hs
  obtain ⟨_hraw, _hx, _hsuf, hemp, hdots⟩ := hs
  have hfree := splitSep_sep_not_mem '/' (slashify raw)
  obtain ⟨w1, hw1, hu1⟩ := ltrim_decomp (slashify raw)
  obtain ⟨w2, hw2, hu2⟩ := rtrim_decomp (ltrim (slashify raw))
  have hun : slashify raw = w1 ++ (jsTrim (slashify raw) ++ w2) := by
    conv_lhs => rw [hu1]
    rw [show jsTrim (slashify raw) = rtrim (ltrim (slashify raw)) from rfl, ← hu2]
  have hw1s : '/' ∉ w1 := fun h => absurd (hw1 '/' h) (by decide)
  have hw2s : '/' ∉ w2 := fun h => absurd (hw2 '/' h) (by decide)
  obtain ⟨i, l0, hin, hiw⟩ := splitSep_append_last hw2s (jsTrim (slashify raw))
  have hl0mem : l0 ∈ splitSep '/' (jsTrim (slashify raw)) := by
    rw [hin]
    simp
  have hl0ne : l0 ≠ [] := fun h => hemp (h ▸ hl0mem)
  have hl0d := hdots l0 hl0mem
  rcases i with _ | ⟨h0, i2⟩
  · have husplit : splitSep '/' (slashify raw) = [w1 ++ (l0 ++ w2)] := by
      conv_lhs => rw [hun]
      exact splitSep_append_head hw1s _ (l0 ++ w2) [] (by simpa using hiw)
    have hone : w1 ++ (l0 ++ w2) ≠ [] := by
      intro h
      rcases List.append_eq_nil.mp h with ⟨_, h2⟩
      exact hl0ne (List.append_eq_nil.mp h2).1
    have hpad := padded_ne_dots hw1 hw2 ⟨hl0ne, hl0d.1, hl0d.2⟩
    constructor
    · intro s hsm
      have hsm2 := List.mem_filter.mp hsm
      rw [husplit] at hsm2
      have hseq : s = w1 ++ (l0 ++ w2) := by simpa using hsm2.1
      subst hseq
      refine ⟨hone, ?_, hpad.1, hpad.2⟩
      refine hfree _ ?_
      rw [husplit]
      simp
    · refine filter_ne_nil_of_mem (p := fun s => !s.isEmpty)
        (x := w1 ++ (l0 ++ w2)) ?_ ?_
      · rw [husplit]
        simp
      · simpa using hone
  · have hiw2 : splitSep '/' (jsTrim (slashify raw) ++ w2)
        = h0 :: (i2 ++ [l0 ++ w2]) := by simpa using hiw
    have husplit : splitSep '/' (slashify raw) = (w1 ++ h0) :: (i2 ++ [l0 ++ w2]) := by
      conv_lhs => rw [hun]
      exact splitSep_append_head hw1s _ h0 (i2 ++ [l0 ++ w2]) hiw2
    have hh0mem : h0 ∈ splitSep '/' (jsTrim (slashify raw)) := by
      rw [hin]
      simp
    have hh0ne : h0 ≠ [] := fun h => hemp (h ▸ hh0mem)
    have hh0d := hdots h0 hh0mem
    have hheadpad := @padded_ne_dots w1 h0 [] hw1 (by simp) ⟨hh0ne, hh0d.1, hh0d.2⟩
    have hlastpad := @padded_ne_dots [] l0 w2 (by simp) hw2 ⟨hl0ne, hl0d.1, hl0d.2⟩
    have hheadne : w1 ++ h0 ≠ [] := by
      intro h
      exact hh0ne (List.append_eq_nil.mp h).2
    constructor
    · intro s hsm
      have hsm2 := List.mem_filter.mp hsm
      have hsne : s ≠ [] := by simpa using hsm2.2
      have hsfree : '/' ∉ s := hfree s hsm2.1
      rw [husplit] at hsm2
      rcases List.mem_cons.mp hsm2.1 with hseq | hsin
      · subst hseq
        refine ⟨hsne, hsfree, ?_, ?_⟩
        · simpa using hheadpad.1
        · simpa using hheadpad.2
      · rcases List.mem_append.mp hsin with hsin | hsin
        · have hsmem : s ∈ splitSep '/' (jsTrim (slashify raw)) := by
            rw [hin]
            exact List.mem_append_left _ (List.mem_cons_of_mem h0 hsin)
          exact ⟨hsne, hsfree, (hdots s hsmem).1, (hdots s hsmem).2⟩
        · have hseq : s = l0 ++ w2 := by simpa using hsin
          subst hseq
          refine ⟨hsne, hsfree, ?_, ?_⟩
          · simpa using hlastpad.1
          · simpa using hlastpad.2
    · refine filter_ne_nil_of_mem (p := fun s => !s.isEmpty) (x := w1 ++ h0) ?_ ?_
      · rw [husplit]
        simp
      · simpa using hheadne

/-- C2 counterexample: `link/a.md` is a safe relative path, yet under a
workspace containing a symlink `link` that resolves outside the root,
`toWorkspaceFileUri` returns null rather than a non-null URI. -/
theorem C2_counterexample_escaping_symlink :
    isSafeRelativePath "link/a.md" = true ∧
    toWorkspaceFileUri fsEscapingLink false "/ws".toList "link/a.md".toList = none := by
  exact ⟨by decide, by decide⟩

/-- C2 (amended). `toWorkspaceFileUri` returns null for every input failing
the syntactic safety check, and for every safe input whose joined URI fails
the workspace-containment check (for instance a path through a symlink whose
canonical target lies outside the root); and for every safe relative path
none of whose components exist yet under the root — in particular every file
about to be created — it returns the joined URI inside the root and
`isWithinWorkspace` accepts that URI, even when the root itself is reached
through a symlinked ancestor, because both sides then resolve through the
same nearest existing ancestor. -/
theorem C2_toWorkspaceFileUri_gate :
    (∀ (fs : FsModel) (win32 : Bool) (root p : List Char),
       isSafeRelativePathL p = false → toWorkspaceFileUri fs win32 root p = none) ∧
    (∀ (fs : FsModel) (win32 : Bool) (root p : List Char),
       isSafeRelativePathL p = true →
       isWithinWorkspace fs win32 root (joinPathStr root (safeSegs p)) = false →
       toWorkspaceFileUri fs win32 root p = none) ∧
    (∀ (fs : FsModel) (win32 : Bool) (rootSegs : List (List Char)) (p : List Char),
       CleanSegs rootSegs → rootSegs ≠ [] →
       isSafeRelativePathL p = true →
       (∀ q, q ≠ [] → q <+: safeSegs p →
         fs.pathExists (renderPath (rootSegs ++ q)) = false) →
       toWorkspaceFileUri fs win32 (renderPath rootSegs) p =
         some (renderPath (rootSegs ++ safeSegs p)) ∧
       isWithinWorkspace fs win32 (renderPath rootSegs)
         (renderPath (rootSegs ++ safeSegs p)) = true) := by
  refine ⟨?_, ?_, ?_⟩
  · intro fs win32 root p h
    simp [toWorkspaceFileUri, h]
  · intro fs win32 root p h1 h2
    simp [toWorkspaceFileUri, h1, h2]
  · intro fs win32 rootSegs p hclean hrne hsafe hnone
    obtain ⟨hpclean, hpne⟩ := safeSegs_clean hsafe
    have hcleanAll : CleanSegs (rootSegs ++ safeSegs p) := by
      intro s hs
      rcases List.mem_append.mp hs with h | h
      · exact hclean s h
      · exact hpclean s h
    have hjoin : joinPathStr (renderPath rootSegs) (safeSegs p)
        = renderPath (rootSegs ++ safeSegs p) := joinPathStr_render hrne hpne
    have hroot : pathResolveSegs (pathResolve (renderPath rootSegs)) = rootSegs := by
      unfold pathResolve
      rw [pathResolveSegs_render hclean, pathResolveSegs_render hclean]
    have htgt : pathResolveSegs (pathResolve (renderPath (rootSegs ++ safeSegs p)))
        = rootSegs ++ safeSegs p := by
      unfold pathResolve
      rw [pathResolveSegs_render hcleanAll, pathResolveSegs_render hcleanAll]
    have hanc : resolveExistingAncestorSegs fs (rootSegs ++ safeSegs p)
        = resolveExistingAncestorSegs fs rootSegs := by
      unfold resolveExistingAncestorSegs
      rw [show (rootSegs ++ safeSegs p).reverse
        = (safeSegs p).reverse ++ rootSegs.reverse from by simp]
      refine resolveAncestorRev_append fs rootSegs.reverse (safeSegs p).reverse ?_
      intro q hq hpre
      rw [List.reverse_reverse] at hpre
      rw [List.reverse_reverse]
      exact hnone q hq hpre
    have hwithin : isWithinWorkspace fs win32 (renderPath rootSegs)
        (renderPath (rootSegs ++ safeSegs p)) = true := by
      unfold isWithinWorkspace resolveExistingAncestorPath
      rw [hroot, htgt, hanc]
      simp
    refine ⟨?_, hwithin⟩
    unfold toWorkspaceFileUri
    rw [hsafe]
    simp only [Bool.not_true, Bool.false_eq_true, if_false]
    rw [hjoin, hwithin]
    simp

/-- Witness for C2 (amended): creating `notes/a.md` under `/ws` when only the
root exists yields the joined URI, and containment holds on it. -/
theorem C2_toWorkspaceFileUri_gate_witness :
    toWorkspaceFileUri fsOnlyRoot false "/ws".toList "notes/a.md".toList =
      some "/ws/notes/a.md".toList ∧
    isWithinWorkspace fsOnlyRoot false "/ws".toList "/ws/notes/a.md".toList = true := by
  have hq : ∀ q, q ≠ [] → q <+: safeSegs "notes/a.md".toList →
      fsOnlyRoot.pathExists (renderPath ([['w', 's']] ++ q)) = false := by
    intro q hqne hpre
    have hsegs : safeSegs "notes/a.md".toList
        = [['n', 'o', 't', 'e', 's'], ['a', '.', 'm', 'd']] := by decide
    rw [hsegs] at hpre
    rcases q with _ | ⟨x, q2⟩
    · exact absurd rfl hqne
    · obtain ⟨hx, hpre2⟩ := List.cons_prefix_cons.mp hpre
      subst hx
      rcases q2 with _ | ⟨y, q3⟩
      · decide
      · obtain ⟨hy, hpre3⟩ := List.cons_prefix_cons.mp hpre2
        subst hy
        have hq3 : q3 = [] := List.prefix_nil.mp hpre3
        subst hq3
        decide
  have h := C2_toWorkspaceFileUri_gate.2.2 fsOnlyRoot false [['w', 's']]
    "notes/a.md".toList (by unfold CleanSegs CleanSeg; decide) (by decide) (by decide) hq
  exact ⟨h.1, h.2⟩

/-- Processing a line never touches the `pending` buffer. -/
theorem processLine_pending (st : RelayState) (l : List Char) :
    (processLine st l).1.pending = st.pending := by
  unfold processLine
  dsimp only
  split
  · rfl
  · split
    · rfl
    · split
      · split
        · split <;> rfl
        · rfl
      · rfl

/-- Processing a line depends on the initial state only through its
`streamDone` and `parseErrors` fields. -/
theorem processLine_set_pending (st : RelayState) (x : List Char) (l : List Char) :
    processLine { st with pending := x } l =
      ({ (processLine st l).1 with pending := x }, (processLine st l).2) := by
  unfold processLine
  dsimp only
  split
  · rfl
  · split
    · rfl
    · split
      · split
        · split <;> rfl
        · rfl
      · rfl

/-- Unfolding equation for `processLines` on a cons cell. -/
theorem processLines_cons (st : RelayState) (l : List Char) (ls : List (List Char)) :
    processLines st (l :: ls) =
      if st.streamDone then (st, [])
      else ((processLines (processLine st l).1 ls).1,
            (processLine st l).2 ++ (processLines (processLine st l).1 ls).2) := rfl

/-- Unfolding equation for `extractLines` on a cons cell. -/
theorem extractLines_cons (c : Char) (cs : List Char) :
    extractLines (c :: cs) =
      if c == '\n' then ([] :: (extractLines cs).1, (extractLines cs).2)
      else match extractLines cs with
        | ([], r) => ([], c :: r)
        | (l :: ls, r) => ((c :: l) :: ls, r) := rfl

/-- After the sentinel the generator has returned: no more lines are
processed. -/
theorem processLines_done {st : RelayState} (h : st.streamDone = true)
    (ls : List (List Char)) : processLines st ls = (st, []) := by
  cases ls with
  | nil => rfl
  | cons l ls2 =>
    unfold processLines
    rw [h]
    simp

/-- Processing lines never touches the `pending` buffer. -/
theorem processLines_pending (st : RelayState) (ls : List (List Char)) :
    (processLines st ls).1.pending = st.pending := by
  induction ls generalizing st with
  | nil => rfl
  | cons l ls2 ih =>
    unfold processLines
    by_cases hd : st.streamDone = true
    · rw [hd]
      simp
    · rw [Bool.not_eq_true] at hd
      rw [hd]
      simp only [Bool.false_eq_true, if_false]
      rw [ih (processLine st l).1, processLine_pending]

/-- Processing lines depends on the initial state only through its
`streamDone` and `parseErrors` fields. -/
theorem processLines_set_pending (st : RelayState) (x : List Char)
    (ls : List (List Char)) :
    processLines { st with pending := x } ls =
      ({ (processLines st ls).1 with pending := x }, (processLines st ls).2) := by
  induction ls generalizing st with
  | nil => rfl
  | cons l ls2 ih =>
    unfold processLines
    dsimp only
    by_cases hd : st.streamDone = true
    · rw [if_pos hd, if_pos hd]
    · rw [if_neg hd, if_neg hd]
      rw [processLine_set_pending st x l]
      dsimp only
      rw [ih (processLine st l).1]

/-- Line processing splits over list concatenation, with the generator's
early return absorbing the tail. -/
theorem processLines_append (st : RelayState) (l1 l2 : List (List Char)) :
    processLines st (l1 ++ l2) =
      ((processLines (processLines st l1).1 l2).1,
       (processLines st l1).2 ++ (processLines (processLines st l1).1 l2).2) := by
  induction l1 generalizing st with
  | nil => simp [processLines]
  | cons l ls ih =>
    by_cases hd : st.streamDone = true
    · rw [processLines_done hd, processLines_done hd]
      dsimp only
      rw [processLines_done hd]
      simp
    · show processLines st (l :: (ls ++ l2)) = _
      rw [processLines_cons, processLines_cons, if_neg hd, if_neg hd]
      dsimp only
      rw [ih (processLine st l).1]
      simp

/-- The remainder of line extraction contains no newline. -/
theorem extractLines_rest_nosep (l : List Char) : '\n' ∉ (extractLines l).2 := by
  induction l with
  | nil => simp [extractLines]
  | cons c cs ih =>
    unfold extractLines
    by_cases hc : (c == '\n') = true
    · simp only [hc, if_true]
      rcases hr : extractLines cs with ⟨ls, r⟩
      rw [hr] at ih
      exact ih
    · simp only [hc, Bool.false_eq_true, if_false]
      rcases hr : extractLines cs with ⟨ls, r⟩
      rw [hr] at ih
      rcases ls with _ | ⟨l0, ls2⟩
      · intro hmem
        rcases List.mem_cons.mp hmem with h | h
        · exact hc (beq_iff_eq.mpr h.symm)
        · exact ih h
      · exact ih

/-- A newline-free buffer extracts no complete line. -/
theorem extractLines_nosep {r : List Char} (hr : '\n' ∉ r) :
    extractLines r = ([], r) := by
  induction r with
  | nil => rfl
  | cons c cs ih =>
    have hc : ¬ (c == '\n') = true := by
      simp only [beq_iff_eq]
      intro h
      exact hr (h ▸ List.mem_cons_self c cs)
    unfold extractLines
    simp only [hc, Bool.false_eq_true, if_false]
    rw [ih fun h => hr (List.mem_cons_of_mem c h)]

/-- Line extraction splits over buffer concatenation: the remainder of the
first part seeds the extraction of the second. -/
theorem extractLines_append (a b : List Char) :
    extractLines (a ++ b) =
      ((extractLines a).1 ++ (extractLines ((extractLines a).2 ++ b)).1,
       (extractLines ((extractLines a).2 ++ b)).2) := by
  induction a with
  | nil => simp [extractLines]
  | cons c cs ih =>
    show extractLines (c :: (cs ++ b)) = _
    rcases hcs : extractLines cs with ⟨ls1, r1⟩
    have hI : extractLines (cs ++ b) =
        (ls1 ++ (extractLines (r1 ++ b)).1, (extractLines (r1 ++ b)).2) := by
      rw [ih, hcs]
    by_cases hc : (c == '\n') = true
    · have hL : extractLines (c :: cs) = ([] :: ls1, r1) := by
        rw [extractLines_cons, if_pos hc, hcs]
      have hL2 : extractLines (c :: (cs ++ b)) =
          ([] :: (extractLines (cs ++ b)).1, (extractLines (cs ++ b)).2) := by
        rw [extractLines_cons, if_pos hc]
      rw [hL2, hI, hL]
      simp
    · rcases ls1 with _ | ⟨h1, t1⟩
      · have hL : extractLines (c :: cs) = ([], c :: r1) := by
          rw [extractLines_cons, if_neg hc, hcs]
        have hL2 : extractLines (c :: (cs ++ b)) =
            (match extractLines (cs ++ b) with
             | ([], r) => ([], c :: r)
             | (l :: ls, r) => ((c :: l) :: ls, r)) := by
          rw [extractLines_cons, if_neg hc]
        have hR2 : extractLines ((c :: r1) ++ b) =
            (match extractLines (r1 ++ b) with
             | ([], r) => ([], c :: r)
             | (l :: ls, r) => ((c :: l) :: ls, r)) := by
          show extractLines (c :: (r1 ++ b)) = _
          rw [extractLines_cons, if_neg hc]
        simp only [List.nil_append] at hI
        rw [hL2, hI, hL]
        show (match extractLines (r1 ++ b) with
             | ([], r) => ([], c :: r)
             | (l :: ls, r) => ((c :: l) :: ls, r)) = _
        rw [← hR2]
        simp
      · have hL : extractLines (c :: cs) = ((c :: h1) :: t1, r1) := by
          rw [extractLines_cons, if_neg hc, hcs]
        have hL2 : extractLines (c :: (cs ++ b)) =
            ((c :: h1) :: (t1 ++ (extractLines (r1 ++ b)).1),
             (extractLines (r1 ++ b)).2) := by
          rw [extractLines_cons, if_neg hc, hI]
          rfl
        rw [hL2, hL]
        simp

/-- Two relay states with equal fields are equal. -/
theorem relayState_eq {s t : RelayState} (h1 : s.pending = t.pending)
    (h2 : s.streamDone = t.streamDone) (h3 : s.parseErrors = t.parseErrors) :
    s = t := by
  obtain ⟨p, d, e⟩ := s
  obtain ⟨q, f, g⟩ := t
  dsimp at h1 h2 h3
  rw [h1, h2, h3]

/-- Observational equivalence is reflexive. -/
theorem relayObsEq_refl (s : RelayState) : RelayObsEq s s :=
  ⟨rfl, rfl, fun _ => rfl⟩

/-- Observational equivalence is symmetric. -/
theorem relayObsEq_symm {s t : RelayState} (h : RelayObsEq s t) : RelayObsEq t s :=
  ⟨h.1.symm, h.2.1.symm, fun hf => (h.2.2 (h.1.trans hf)).symm⟩

/-- Observational equivalence is transitive. -/
theorem relayObsEq_trans {s t u : RelayState} (h : RelayObsEq s t)
    (h' : RelayObsEq t u) : RelayObsEq s u :=
  ⟨h.1.trans h'.1, h.2.1.trans h'.2.1,
   fun hf => (h.2.2 hf).trans (h'.2.2 (h.1 ▸ hf))⟩

/-- An empty read on a state whose buffer holds no complete line yields
nothing and leaves the state unchanged. -/
theorem feedChunk_nil {st : RelayState} (h : '\n' ∉ st.pending) :
    feedChunk st [] = (st, []) := by
  unfold feedChunk
  by_cases hd : st.streamDone = true
  · rw [if_pos hd]
  · rw [if_neg hd, List.append_nil, extractLines_nosep h]
    rfl

/-- Feeding a chunk leaves no complete line in the buffer. -/
theorem feedChunk_pending_nosep {st : RelayState} (h : '\n' ∉ st.pending)
    (c : List Char) : '\n' ∉ (feedChunk st c).1.pending := by
  unfold feedChunk
  by_cases hd : st.streamDone = true
  · rw [if_pos hd]
    exact h
  · rw [if_neg hd]
    dsimp only
    rw [processLines_pending]
    exact extractLines_rest_nosep _

/-- Feeding the same chunk to observationally equivalent states yields the
same output and observationally equivalent states. -/
theorem feedChunk_obs {s t : RelayState} (h : RelayObsEq s t) (c : List Char) :
    (feedChunk s c).2 = (feedChunk t c).2 ∧
      RelayObsEq (feedChunk s c).1 (feedChunk t c).1 := by
  obtain ⟨h1, h2, h3⟩ := h
  by_cases hd : s.streamDone = true
  · have hdt : t.streamDone = true := h1 ▸ hd
    have e1 : feedChunk s c = (s, []) := by
      unfold feedChunk
      rw [if_pos hd]
    have e2 : feedChunk t c = (t, []) := by
      unfold feedChunk
      rw [if_pos hdt]
    rw [e1, e2]
    exact ⟨rfl, h1, h2, fun hf => absurd (hf.symm.trans hd) Bool.false_ne_true⟩
  · rw [Bool.not_eq_true] at hd
    have hst : s = t := relayState_eq (h3 hd) h1 h2
    rw [hst]
    exact ⟨rfl, relayObsEq_refl _⟩

/-- Flushing observationally equivalent states yields the same output and the
same final done flag. -/
theorem relayFinish_obs {s t : RelayState} (h : RelayObsEq s t) :
    (relayFinish s).2 = (relayFinish t).2 ∧
      (relayFinish s).1.streamDone = (relayFinish t).1.streamDone := by
  obtain ⟨h1, h2, h3⟩ := h
  by_cases hd : s.streamDone = true
  · have hdt : t.streamDone = true := h1 ▸ hd
    have e1 : relayFinish s = (s, []) := by
      unfold relayFinish
      rw [if_pos hd]
    have e2 : relayFinish t = (t, []) := by
      unfold relayFinish
      rw [if_pos hdt]
    rw [e1, e2]
    exact ⟨rfl, h1⟩
  · rw [Bool.not_eq_true] at hd
    have hst : s = t := relayState_eq (h3 hd) h1 h2
    rw [hst]
    exact ⟨rfl, rfl⟩

/-- One read of a concatenated chunk behaves like two consecutive reads:
the outputs concatenate and the states agree observationally (the dead
buffer left behind by an early `[DONE]` may differ). -/
theorem feedChunk_append (st : RelayState) (a b : List Char) :
    (feedChunk st (a ++ b)).2 =
        (feedChunk st a).2 ++ (feedChunk (feedChunk st a).1 b).2 ∧
      RelayObsEq (feedChunk st (a ++ b)).1 (feedChunk (feedChunk st a).1 b).1 := by
  by_cases hd : st.streamDone = true
  · have h1 : ∀ x, feedChunk st x = (st, []) := fun x => by
      unfold feedChunk
      rw [if_pos hd]
    rw [h1 (a ++ b), h1 a]
    dsimp only
    rw [h1 b]
    exact ⟨rfl, relayObsEq_refl _⟩
  · rcases hEa : extractLines (st.pending ++ a) with ⟨ls1, r1⟩
    rcases hEb : extractLines (r1 ++ b) with ⟨ls2, r2⟩
    have hEab : extractLines (st.pending ++ (a ++ b)) = (ls1 ++ ls2, r2) := by
      rw [← List.append_assoc, extractLines_append (st.pending ++ a) b, hEa]
      dsimp only
      rw [hEb]
    have hfa : feedChunk st a =
        ({ (processLines st ls1).1 with pending := r1 },
         (processLines st ls1).2) := by
      unfold feedChunk
      rw [if_neg hd, hEa]
      dsimp only
      rw [processLines_set_pending]
    have hfab : feedChunk st (a ++ b) =
        ({ (processLines st (ls1 ++ ls2)).1 with pending := r2 },
         (processLines st (ls1 ++ ls2)).2) := by
      unfold feedChunk
      rw [if_neg hd, hEab]
      dsimp only
      rw [processLines_set_pending]
    have hQ := processLines_append st ls1 ls2
    by_cases hP : (processLines st ls1).1.streamDone = true
    · have hdone : processLines (processLines st ls1).1 ls2 =
          ((processLines st ls1).1, []) := processLines_done hP ls2
      have hsd : ({ (processLines st ls1).1 with pending := r1 } :
          RelayState).streamDone = true := hP
      have hfb : feedChunk ({ (processLines st ls1).1 with pending := r1 }) b =
          ({ (processLines st ls1).1 with pending := r1 }, []) := by
        unfold feedChunk
        rw [if_pos hsd]
      constructor
      · rw [hfab, hQ, hdone, hfa]
        dsimp only
        rw [hfb]
      · rw [hfab, hQ, hdone, hfa]
        dsimp only
        rw [hfb]
        exact ⟨rfl, rfl, fun hf => absurd (hf.symm.trans hP) Bool.false_ne_true⟩
    · have hns : ¬ (({ (processLines st ls1).1 with pending := r1 } :
          RelayState).streamDone = true) := hP
      have hfb : feedChunk ({ (processLines st ls1).1 with pending := r1 }) b =
          ({ (processLines (processLines st ls1).1 ls2).1 with pending := r2 },
           (processLines (processLines st ls1).1 ls2).2) := by
        unfold feedChunk
        rw [if_neg hns]
        dsimp only
        rw [hEb]
        dsimp only
        rw [processLines_set_pending]
      constructor
      · rw [hfab, hQ, hfa]
        dsimp only
        rw [hfb]
      · rw [hfab, hQ, hfa]
        dsimp only
        rw [hfb]
        exact relayObsEq_refl _

/-- Folding the relay over a chunk list behaves like one read of the joined
stream: outputs accumulate identically and the states agree observationally. -/
theorem relayChunksAux_join (chunks : List (List Char)) :
    ∀ (st : RelayState) (os : List (List Char)), '\n' ∉ st.pending →
      (relayChunksAux (st, os) chunks).2 = os ++ (feedChunk st chunks.flatten).2 ∧
        RelayObsEq (relayChunksAux (st, os) chunks).1 (feedChunk st chunks.flatten).1 := by
  induction chunks with
  | nil =>
    intro st os h
    have hj : (([] : List (List Char)).flatten) = [] := rfl
    rw [hj, feedChunk_nil h]
    constructor
    · show os = os ++ []
      simp
    · exact relayObsEq_refl st
  | cons c cs ih =>
    intro st os h
    have hstep : relayChunksAux (st, os) (c :: cs) =
        relayChunksAux ((feedChunk st c).1, os ++ (feedChunk st c).2) cs := rfl
    have hj : ((c :: cs).flatten) = c ++ cs.flatten := rfl
    rw [hstep, hj]
    have h1 := ih (feedChunk st c).1 (os ++ (feedChunk st c).2)
      (feedChunk_pending_nosep h c)
    have h2 := feedChunk_append st c cs.flatten
    constructor
    · rw [h1.1, h2.1, List.append_assoc]
    · exact relayObsEq_trans h1.2 (relayObsEq_symm h2.2)

/-- The whole relay run is determined by the joined stream: any chunking
produces the run of the single-chunk stream. -/
theorem runRelay_join (chunks : List (List Char)) :
    runRelay chunks = runRelay [chunks.flatten] := by
  have h := relayChunksAux_join chunks ⟨[], false, 0⟩ [] (by simp)
  have hro := relayFinish_obs h.2
  show ((relayChunksAux ((⟨[], false, 0⟩ : RelayState), []) chunks).2 ++
        (relayFinish (relayChunksAux ((⟨[], false, 0⟩ : RelayState), []) chunks).1).2,
        (relayFinish (relayChunksAux ((⟨[], false, 0⟩ : RelayState), []) chunks).1).1.streamDone) =
       (([] ++ (feedChunk (⟨[], false, 0⟩ : RelayState) chunks.flatten).2) ++
        (relayFinish (feedChunk (⟨[], false, 0⟩ : RelayState) chunks.flatten).1).2,
        (relayFinish (feedChunk (⟨[], false, 0⟩ : RelayState) chunks.flatten).1).1.streamDone)
  rw [h.1, hro.1, hro.2]

/-- Claim C5: for the remote LM Studio protocol, given the two-delta response
stream ending in the sentinel line (contents "A" then "B" then DONE), split in
ANY way across network reads - including mid-line splits - the relay yields
exactly "A" then "B" and terminates cleanly when the sentinel line is
processed: partial lines are buffered across reads, lines are split on
newline, and trailing unterminated content is flushed when the read side
closes. -/
theorem C5_relay_chunked_stream (chunks : List (List Char))
    (h : chunks.flatten = sseClaimStream.toList) :
    runRelay chunks = (["A".toList, "B".toList], true) := by
  rw [runRelay_join, h]
  decide

/-- Witness for C5: a concrete three-chunk split of the stream, cutting inside
the first JSON line and inside the second line's data marker, still yields
exactly "A" then "B" with a clean termination. -/
theorem C5_relay_chunked_stream_witness :
    sseClaimChunks.flatten = sseClaimStream.toList ∧
      runRelay sseClaimChunks = (["A".toList, "B".toList], true) :=
  ⟨by decide, C5_relay_chunked_stream sseClaimChunks (by decide)⟩

end Bridge
